import Mathlib

/-!
Verification of `bfc.c`, a small optimizing bytecode compiler and interpreter
for the BF language.  The C program is embedded shallowly:

* fixed-capacity sentinel-terminated C buffers become Lean lists (the
  `NUM_OPS` / `'\0'` sentinels are represented by the end of the list);
* the machine tape (`char data[TAPELEN]`) becomes a total function
  `Int → Int` whose cells always hold values reduced modulo 256, matching
  8-bit wrap-around `char` arithmetic; the data pointer is an `Int`
  (the C program performs no bounds check, so out-of-range cells simply
  live on the mathematical tape);
* `getchar` reading from an exhausted stream yields `EOF = -1`, which the
  assignment `data[dp] = getchar()` truncates to the byte 255;
* the only failure the C optimizer can exhibit — dereferencing the NULL
  `loop_stack` on an `OP_JNE` with an empty stack — is modelled as `none`;
* the interpreter loop of `run` is modelled with explicit fuel; the fuel
  is an artifact of the embedding and results are shown to be independent
  of it.
-/

set_option maxHeartbeats 1000000

/-- The opcode enumeration of `bfc.c` (the `NUM_OPS` terminal marker is
represented by the end of a Lean list). -/
inductive Opcode where
  | OP_ADD
  | OP_SUB
  | OP_INC
  | OP_DEC
  | OP_PUT
  | OP_GET
  | OP_JMP
  | OP_JNE
  deriving DecidableEq, Repr

open Opcode

/-- Whether an opcode is one of the two jump opcodes (their argument is a
target index rather than a repeat count). -/
def Opcode.isJump : Opcode → Bool
  | OP_JMP => true
  | OP_JNE => true
  | _ => false

/-- A bytecode instruction: an opcode together with its integer argument.
Arguments produced by the pipeline are nonnegative (repeat counts or
instruction indices), so the argument is modelled as `Nat`. -/
structure Instruction where
  op : Opcode
  arg : Nat
  deriving DecidableEq, Repr

/-- The eight BF command characters kept by the lexer. -/
inductive Tok where
  | plus
  | minus
  | gt
  | lt
  | dot
  | comma
  | lbracket
  | rbracket
  deriving DecidableEq, Repr

/-- The `switch` of `lex`: command characters are recognized, everything
else is discarded (`none`). -/
def charTok : Char → Option Tok
  | '+' => some Tok.plus
  | '-' => some Tok.minus
  | '>' => some Tok.gt
  | '<' => some Tok.lt
  | '.' => some Tok.dot
  | ',' => some Tok.comma
  | '[' => some Tok.lbracket
  | ']' => some Tok.rbracket
  | _ => none

/-- The capacity constant `TAPELEN` of `bfc.c`. -/
def TAPELEN : Nat := 30000

/-- The loop of `lex`: at each fetched character the running count of stored
tokens is checked against `TAPELEN - 2` (returning `FAILURE`, i.e. `none`,
when `count >= TAPELEN - 2`), then command characters are appended and all
other characters are discarded. -/
def lexAux : List Char → Nat → Option (List Tok)
  | [], _ => some []
  | c :: rest, count =>
    if TAPELEN - 2 ≤ count then
      none
    else
      match charTok c with
      | some t => (lexAux rest (count + 1)).map (fun ts => t :: ts)
      | none => lexAux rest count

/-- The function `lex` of `bfc.c`. -/
def lex (input : List Char) : Option (List Tok) := lexAux input 0

/-- The `switch` of `parse`, mapping each token to its opcode. -/
def tokOp : Tok → Opcode
  | Tok.plus => OP_ADD
  | Tok.minus => OP_SUB
  | Tok.gt => OP_INC
  | Tok.lt => OP_DEC
  | Tok.dot => OP_PUT
  | Tok.comma => OP_GET
  | Tok.lbracket => OP_JMP
  | Tok.rbracket => OP_JNE

/-- Contribution of one token to the `unmatched` counter of `parse`
(`unmatched++` on `'['`, `unmatched--` on `']'`). -/
def tokDelta : Tok → Int
  | Tok.lbracket => 1
  | Tok.rbracket => -1
  | _ => 0

/-- The final value of the `unmatched` counter of `parse`. -/
def unmatchedCount (ts : List Tok) : Int := (ts.map tokDelta).sum

/-- The function `parse` of `bfc.c`: every token is mapped 1:1 to an opcode
and the result is returned exactly when the final `unmatched` counter is
zero. -/
def parse (ts : List Tok) : Option (List Opcode) :=
  if unmatchedCount ts = 0 then some (ts.map tokOp) else none

/-- The function `compile` of `bfc.c`: each opcode becomes an instruction
with unit argument. -/
def compile (ast : List Opcode) : List Instruction :=
  ast.map (fun o => ⟨o, 1⟩)

/-- The assignment `out[p].arg = n` of the C optimizer: replace the argument
of the instruction at position `p`, keeping its opcode (no-op when `p` is
out of range, which never happens along reachable executions). -/
def setArg : List Instruction → Nat → Nat → List Instruction
  | [], _, _ => []
  | i :: rest, 0, n => ⟨i.op, n⟩ :: rest
  | i :: rest, p + 1, n => i :: setArg rest p n

/-- The loop of `optimize`.  `bc` is the remaining input bytecode, `stack`
is the linked-list stack of pending `OP_JMP` output positions, `acc` is the
output emitted so far (its length is the C variable `cur`).  On `OP_JMP`
the instruction is emitted and its position pushed; on `OP_JNE` the most
recent pending position is popped, the instruction emitted there gets the
current position as argument, and the closing jump is emitted carrying the
popped position; dereferencing the NULL stack (`loop_stack->hd` with
`loop_stack == NULL`) is modelled as `none`.  Any other opcode absorbs the
following run of instructions with the same opcode, incrementing its
argument once per absorbed instruction. -/
def optimizeGo : List Instruction → List Nat → List Instruction → Option (List Instruction)
  | [], _, acc => some acc
  | inst :: rest, stack, acc =>
    if inst.op = OP_JMP then
      optimizeGo rest (acc.length :: stack) (acc ++ [inst])
    else if inst.op = OP_JNE then
      match stack with
      | [] => none
      | p :: stack =>
        optimizeGo rest stack (setArg acc p acc.length ++ [⟨inst.op, p⟩])
    else
      optimizeGo (rest.drop (rest.takeWhile (fun b => b.op = inst.op)).length) stack
        (acc ++ [⟨inst.op, inst.arg + (rest.takeWhile (fun b => b.op = inst.op)).length⟩])
termination_by bc _ _ => bc.length
decreasing_by
  all_goals try simp_wf
  all_goals omega

/-- The function `optimize` of `bfc.c`. -/
def optimize (bcode : List Instruction) : Option (List Instruction) :=
  optimizeGo bcode [] []

/-- State of the BF machine of `run`: data pointer, tape, remaining runtime
input bytes, and output bytes written so far. -/
@[ext]
structure St where
  dp : Int
  tape : Int → Int
  inp : List Int
  out : List Int

/-- The current cell `data[dp]`. -/
def readCell (st : St) : Int := st.tape st.dp

/-- The assignment `data[dp] = v`. -/
def writeCell (st : St) (v : Int) : St :=
  { st with tape := fun k => if k = st.dp then v else st.tape k }

/-- The `OP_GET` loop of `run`: `n` successive `data[dp] = getchar()` calls.
Each call consumes one input byte (truncated to a byte by the `char`
assignment); on an exhausted stream `getchar` returns `EOF = -1`, which the
`char` assignment stores as the byte 255.  Returns the remaining input and
the final cell value. -/
def getN : Nat → List Int → Int → List Int × Int
  | 0, inp, c => (inp, c)
  | n + 1, [], _ => getN n [] 255
  | n + 1, b :: r, _ => getN n r (b % 256)

/-- Effect of an `OP_GET` instruction with argument `n` on the state. -/
def doGet (n : Nat) (st : St) : St :=
  writeCell { st with inp := (getN n st.inp (readCell st)).1 }
    (getN n st.inp (readCell st)).2

/-- The initial state of `run`: zeroed tape, data pointer 0, no output. -/
def initSt (inp : List Int) : St :=
  { dp := 0, tape := fun _ => 0, inp := inp, out := [] }

/-- Generic fueled iteration of a partial step function: stops successfully
at a state satisfying `h`, takes a step otherwise, and gives up (`none`)
when the fuel runs out or the step is undefined. -/
def runFuel (h : α → Bool) (step : α → Option α) : Nat → α → Option α
  | 0, _ => none
  | f + 1, x => if h x then some x else (step x).bind (runFuel h step f)

/-- Exactly `k` applications of a partial step function. -/
def stepN (step : α → Option α) : Nat → α → Option α
  | 0, x => some x
  | k + 1, x => (step x).bind (stepN step k)

/-- One iteration of the `while` loop of `run`, dispatching on the opcode
of `program[ip]`; the machine configuration is the pair of the instruction
pointer and the state.  `none` means the sentinel was reached (the loop of
`run` has terminated). -/
def ostep (prog : List Instruction) (x : Nat × St) : Option (Nat × St) :=
  match prog[x.1]? with
  | none => none
  | some i =>
    match i.op with
    | OP_ADD => some (x.1 + 1, writeCell x.2 ((readCell x.2 + (i.arg : Int)) % 256))
    | OP_SUB => some (x.1 + 1, writeCell x.2 ((readCell x.2 - (i.arg : Int)) % 256))
    | OP_INC => some (x.1 + 1, { x.2 with dp := x.2.dp + (i.arg : Int) })
    | OP_DEC => some (x.1 + 1, { x.2 with dp := x.2.dp - (i.arg : Int) })
    | OP_PUT => some (x.1 + 1, { x.2 with out := x.2.out ++ List.replicate i.arg (readCell x.2) })
    | OP_GET => some (x.1 + 1, doGet i.arg x.2)
    | OP_JMP => some ((if readCell x.2 = 0 then i.arg else x.1) + 1, x.2)
    | OP_JNE => some ((if readCell x.2 = 0 then x.1 else i.arg) + 1, x.2)

/-- Whether the C loop of `run` has reached the `NUM_OPS` sentinel. -/
def oHalt (prog : List Instruction) (x : Nat × St) : Bool := (prog[x.1]?).isNone

/-- The function `run` of `bfc.c` with explicit fuel: iterate `ostep` until
the sentinel is reached. -/
def optRun (prog : List Instruction) (f : Nat) (x : Nat × St) : Option (Nat × St) :=
  runFuel (oHalt prog) (ostep prog) f x

/-- Forward scan for the textually matching `]`: reading the list, `go l d`
is the offset of the first `OP_JNE` not closed by an earlier `OP_JMP` of
the scanned segment, starting with `d` still-open brackets. -/
def go : List Opcode → Nat → Option Nat
  | [], _ => none
  | OP_JNE :: _, 0 => some 0
  | OP_JNE :: rest, d + 1 => (go rest d).map (fun k => k + 1)
  | OP_JMP :: rest, d => (go rest (d + 1)).map (fun k => k + 1)
  | _ :: rest, d => (go rest d).map (fun k => k + 1)

/-- Swap the two jump opcodes, fixing everything else (used to express the
backward scan as a forward scan of the reversed list). -/
def swapOp : Opcode → Opcode
  | OP_JMP => OP_JNE
  | OP_JNE => OP_JMP
  | o => o

/-- Position of the `]` textually matching the `[` at position `i`:
scan forward from `i + 1` with no open brackets. -/
def matchF (ops : List Opcode) (i : Nat) : Option Nat :=
  (go (ops.drop (i + 1)) 0).map (fun k => i + 1 + k)

/-- Position of the `[` textually matching the `]` at position `i`:
scan backward from `i - 1`, expressed as a forward scan of the reversed
prefix with the jump opcodes swapped. -/
def matchB (ops : List Opcode) (i : Nat) : Option Nat :=
  (go (((ops.take i).reverse).map swapOp) 0).map (fun k => i - 1 - k)

/-- Modelled from the spec (claim C3): one step of the naive reference
interpreter, which executes the lowered unit-argument instruction sequence
one instruction at a time — each non-jump opcode acts once — and resolves
jumps by textual bracket matching (`matchF` / `matchB`) rather than by
precomputed targets. -/
def nstep (ops : List Opcode) (x : Nat × St) : Option (Nat × St) :=
  match ops[x.1]? with
  | none => none
  | some o =>
    match o with
    | OP_ADD => some (x.1 + 1, writeCell x.2 ((readCell x.2 + 1) % 256))
    | OP_SUB => some (x.1 + 1, writeCell x.2 ((readCell x.2 - 1) % 256))
    | OP_INC => some (x.1 + 1, { x.2 with dp := x.2.dp + 1 })
    | OP_DEC => some (x.1 + 1, { x.2 with dp := x.2.dp - 1 })
    | OP_PUT => some (x.1 + 1, { x.2 with out := x.2.out ++ [readCell x.2] })
    | OP_GET => some (x.1 + 1, doGet 1 x.2)
    | OP_JMP =>
      if readCell x.2 = 0 then (matchF ops x.1).map (fun q => (q + 1, x.2))
      else some (x.1 + 1, x.2)
    | OP_JNE =>
      if readCell x.2 = 0 then some (x.1 + 1, x.2)
      else (matchB ops x.1).map (fun q => (q + 1, x.2))

/-- Whether the naive interpreter has run past the end of the program. -/
def nHalt (ops : List Opcode) (x : Nat × St) : Bool := (ops[x.1]?).isNone

/-- Modelled from the spec (claim C3): the naive reference interpreter with
explicit fuel. -/
def naiveRun (ops : List Opcode) (f : Nat) (x : Nat × St) : Option (Nat × St) :=
  runFuel (nHalt ops) (nstep ops) f x

/-- Unfold an optimized instruction back into the unit instructions it
replaced: a folded non-jump instruction of argument `n` came from `n`
unit instructions; a jump came from a single bracket. -/
def unfoldI : List Instruction → List Opcode
  | [] => []
  | i :: rest =>
    (if i.op.isJump then [i.op] else List.replicate i.arg i.op) ++ unfoldI rest

/-- Position in the unit instruction sequence corresponding to position `c`
of the optimized sequence `out`. -/
def posOf (out : List Instruction) (c : Nat) : Nat := (unfoldI (out.take c)).length

/-- The opcode sequence of an instruction sequence. -/
def opsOf (l : List Instruction) : List Opcode := l.map (fun i => i.op)

/-- Bracket-depth contribution of one opcode. -/
def jdelta : Opcode → Int
  | OP_JMP => 1
  | OP_JNE => -1
  | _ => 0

/-- Net bracket depth of an opcode sequence. -/
def bdepth (l : List Opcode) : Int := (l.map jdelta).sum

/-- The balance condition of the spec: the running open-bracket count of
every proper prefix is nonnegative and the total count is zero. -/
def BalancedOps (l : List Opcode) : Prop :=
  (∀ p < l.length, 0 ≤ bdepth (l.take p)) ∧ bdepth l = 0

instance (l : List Opcode) : Decidable (BalancedOps l) := by
  unfold BalancedOps
  infer_instance

/-- Grammar view of balanced opcode sequences: empty, a non-jump opcode
followed by a balanced sequence, or a complete bracket pair with balanced
inside and balanced continuation. -/
inductive Bal : List Opcode → Prop where
  | nil : Bal []
  | op : ∀ (o : Opcode) (s : List Opcode), o ≠ OP_JMP → o ≠ OP_JNE → Bal s → Bal (o :: s)
  | loop : ∀ (s t : List Opcode), Bal s → Bal t → Bal (OP_JMP :: s ++ OP_JNE :: t)

/-- The segment of `l` from position `i` (inclusive) to position `j`
(exclusive). -/
def seg (l : List Instruction) (i j : Nat) : List Instruction :=
  (l.drop i).take (j - i)

/-- Structural well-formedness of the jump pairs of an optimized block `Δ`
whose first instruction sits at absolute output position `b`: every jump
argument is the absolute position of a partner jump pointing back, and the
opcode segment strictly between a pair is balanced. -/
def PairsOK (b : Nat) (Δ : List Instruction) : Prop :=
  (∀ c t, Δ[c]? = some ⟨OP_JMP, t⟩ →
    ∃ d, t = b + d ∧ c < d ∧ Δ[d]? = some ⟨OP_JNE, b + c⟩ ∧ Bal (unfoldI (seg Δ (c + 1) d))) ∧
  (∀ c t, Δ[c]? = some ⟨OP_JNE, t⟩ →
    ∃ d, t = b + d ∧ d < c ∧ Δ[d]? = some ⟨OP_JMP, b + c⟩ ∧ Bal (unfoldI (seg Δ (d + 1) c)))

/-- Continuations fed to the optimizer during the structural induction:
either nothing or a pending closing jump, so that a run of foldable
instructions never crosses into the continuation. -/
def EndsJNE (R : List Instruction) : Prop :=
  R = [] ∨ ∃ a r, R = Instruction.mk OP_JNE a :: r

/-- Every pending stack entry of the optimizer points at an `OP_JMP`
already emitted. -/
def StackJmp (stack : List Nat) (acc : List Instruction) : Prop :=
  ∀ p ∈ stack, (acc[p]?).map (fun i => i.op) = some OP_JMP

/-- No two adjacent instructions share the same non-jump opcode. -/
def NoAdj (l : List Instruction) : Prop :=
  ∀ c o, (l[c]?).map (fun i => i.op) = some o →
    (l[c + 1]?).map (fun i => i.op) = some o → o.isJump = true

/-- The whole pipeline of `main`: lex, parse, compile, optimize, then run
with the given fuel, returning the produced output bytes. -/
def bfcOut (fuel : Nat) (src : List Char) (inp : List Int) : Option (List Int) :=
  (lex src).bind fun ts =>
    (parse ts).bind fun ast =>
      (optimize (compile ast)).bind fun prog =>
        (optRun prog fuel (0, initSt inp)).map fun y => y.2.out

/-- The overflow condition of `lex`: some character is fetched while
`TAPELEN - 2` command characters have already been stored. -/
def LexOverflow (input : List Char) : Prop :=
  ∃ k < input.length, TAPELEN - 2 ≤ (input.take k).countP (fun c => (charTok c).isSome)

instance (input : List Char) : Decidable (LexOverflow input) := by
  unfold LexOverflow
  infer_instance

/-! Basic structural lemmas about unfolding, positions and `setArg`. -/

theorem unfoldI_append (a b : List Instruction) :
    unfoldI (a ++ b) = unfoldI a ++ unfoldI b := by
  induction a with
  | nil => rfl
  | cons i rest ih => simp [unfoldI, ih]

theorem unfoldI_take_drop (out : List Instruction) (c : Nat) :
    unfoldI out = unfoldI (out.take c) ++ unfoldI (out.drop c) := by
  rw [← unfoldI_append, List.take_append_drop]

theorem unfoldI_drop (out : List Instruction) (c : Nat) :
    (unfoldI out).drop (posOf out c) = unfoldI (out.drop c) := by
  conv_lhs => rw [unfoldI_take_drop out c]
  rw [posOf, List.drop_left]

theorem unfoldI_take (out : List Instruction) (c : Nat) :
    (unfoldI out).take (posOf out c) = unfoldI (out.take c) := by
  conv_lhs => rw [unfoldI_take_drop out c]
  rw [posOf, List.take_left]

theorem posOf_succ (out : List Instruction) (c : Nat) :
    posOf out (c + 1) = posOf out c + (unfoldI (out[c]?.toList)).length := by
  rw [posOf, posOf, List.take_succ, unfoldI_append, List.length_append]

theorem posOf_succ_jump (out : List Instruction) (c : Nat) (i : Instruction)
    (h : out[c]? = some i) (hj : i.op.isJump = true) :
    posOf out (c + 1) = posOf out c + 1 := by
  rw [posOf_succ, h]
  simp [unfoldI, hj]

theorem posOf_succ_nonjump (out : List Instruction) (c : Nat) (i : Instruction)
    (h : out[c]? = some i) (hj : i.op.isJump = false) :
    posOf out (c + 1) = posOf out c + i.arg := by
  rw [posOf_succ, h]
  simp [unfoldI, hj]

theorem posOf_of_none (out : List Instruction) (c : Nat) (h : out[c]? = none) :
    posOf out c = (unfoldI out).length := by
  rw [posOf, List.take_of_length_le]
  exact le_of_not_lt fun hc => by simp [List.getElem?_eq_getElem hc] at h

theorem setArg_length (l : List Instruction) (p n : Nat) :
    (setArg l p n).length = l.length := by
  induction l generalizing p with
  | nil => rfl
  | cons i rest ih =>
    cases p with
    | zero => rfl
    | succ q => simp [setArg, ih]

theorem opsOf_setArg (l : List Instruction) (p n : Nat) :
    opsOf (setArg l p n) = opsOf l := by
  induction l generalizing p with
  | nil => rfl
  | cons i rest ih =>
    cases p with
    | zero => simp [setArg, opsOf]
    | succ q => simpa [setArg, opsOf] using ih q

theorem setArg_getElem?_self (l : List Instruction) (p n : Nat) :
    (setArg l p n)[p]? = (l[p]?).map (fun i => ⟨i.op, n⟩) := by
  induction l generalizing p with
  | nil => simp [setArg]
  | cons i rest ih =>
    cases p with
    | zero => simp [setArg]
    | succ q => simpa [setArg] using ih q

theorem setArg_getElem?_ne (l : List Instruction) (p n q : Nat) (h : q ≠ p) :
    (setArg l p n)[q]? = l[q]? := by
  induction l generalizing p q with
  | nil => simp [setArg]
  | cons i rest ih =>
    cases p with
    | zero =>
      cases q with
      | zero => exact absurd rfl h
      | succ q => simp [setArg]
    | succ p =>
      cases q with
      | zero => simp [setArg]
      | succ q => simpa [setArg] using ih p q (by omega)

theorem setArg_append_firstlen (a : List Instruction) (x : Instruction)
    (y : List Instruction) (n : Nat) :
    setArg (a ++ x :: y) a.length n = a ++ Instruction.mk x.op n :: y := by
  induction a with
  | nil => rfl
  | cons i rest ih => simpa [setArg] using ih

theorem unfoldI_setArg_jump (l : List Instruction) (p n : Nat) (i : Instruction)
    (h : l[p]? = some i) (hj : i.op.isJump = true) :
    unfoldI (setArg l p n) = unfoldI l := by
  induction l generalizing p with
  | nil => simp [setArg]
  | cons x rest ih =>
    cases p with
    | zero =>
      simp only [List.getElem?_cons_zero, Option.some_inj] at h
      subst h
      simp [setArg, unfoldI, hj]
    | succ q =>
      simp only [List.getElem?_cons_succ] at h
      simp [setArg, unfoldI, ih q h]

theorem opsOf_getElem? (l : List Instruction) (c : Nat) :
    (opsOf l)[c]? = (l[c]?).map (fun i => i.op) := by
  simp [opsOf]

theorem bdepth_nil : bdepth [] = 0 := rfl

theorem bdepth_cons (o : Opcode) (l : List Opcode) :
    bdepth (o :: l) = jdelta o + bdepth l := by
  simp [bdepth]

theorem bdepth_append (a b : List Opcode) :
    bdepth (a ++ b) = bdepth a + bdepth b := by
  simp [bdepth]

theorem bdepth_take_drop (l : List Opcode) (m p : Nat) :
    bdepth (l.take (m + p)) = bdepth (l.take m) + bdepth ((l.drop m).take p) := by
  rw [List.take_add, bdepth_append]

theorem bdepth_take_succ (l : List Opcode) (q : Nat) (o : Opcode) (h : l[q]? = some o) :
    bdepth (l.take (q + 1)) = bdepth (l.take q) + jdelta o := by
  rw [List.take_succ, h, bdepth_append]
  simp [bdepth]

/-! Lemmas about the textual bracket scan `go` and the grammar `Bal`. -/

theorem go_jmp (rest : List Opcode) (d : Nat) :
    go (OP_JMP :: rest) d = (go rest (d + 1)).map (fun k => k + 1) := rfl

theorem go_jne_zero (rest : List Opcode) : go (OP_JNE :: rest) 0 = some 0 := rfl

theorem go_jne_succ (rest : List Opcode) (d : Nat) :
    go (OP_JNE :: rest) (d + 1) = (go rest d).map (fun k => k + 1) := rfl

theorem go_cons_nonjump (o : Opcode) (h1 : o ≠ OP_JMP) (h2 : o ≠ OP_JNE)
    (rest : List Opcode) (d : Nat) :
    go (o :: rest) d = (go rest d).map (fun k => k + 1) := by
  cases o <;> first
    | rfl
    | exact absurd rfl h1
    | exact absurd rfl h2

theorem Bal_append {s t : List Opcode} (hs : Bal s) (ht : Bal t) : Bal (s ++ t) := by
  induction hs with
  | nil => simpa using ht
  | op o s h1 h2 _ ih => exact Bal.op o _ h1 h2 ih
  | loop s u hs1 _ _ ihu =>
    have h := Bal.loop s (u ++ t) hs1 ihu
    simpa using h

theorem go_bal_shift {s : List Opcode} (hs : Bal s) :
    ∀ (d : Nat) (rest : List Opcode),
      go (s ++ rest) d = (go rest d).map (fun k => k + s.length) := by
  induction hs with
  | nil =>
    intro d rest
    cases h : go rest d <;> simp [h]
  | op o s h1 h2 _ ih =>
    intro d rest
    rw [List.cons_append, go_cons_nonjump o h1 h2, ih d rest]
    cases h : go rest d <;> simp [h]
    omega
  | loop s u _ _ ihs ihu =>
    intro d rest
    have e : (OP_JMP :: s ++ OP_JNE :: u) ++ rest
        = OP_JMP :: (s ++ (OP_JNE :: (u ++ rest))) := by simp
    rw [e, go_jmp, ihs (d + 1) (OP_JNE :: (u ++ rest)), go_jne_succ, ihu d rest]
    cases h : go rest d <;> simp [h]
    omega

theorem go_bal_start {s : List Opcode} (hs : Bal s) (r : List Opcode) :
    go (s ++ OP_JNE :: r) 0 = some s.length := by
  rw [go_bal_shift hs 0 (OP_JNE :: r), go_jne_zero]
  simp

theorem swapRev_bal {s : List Opcode} (hs : Bal s) :
    Bal ((s.reverse).map swapOp) := by
  induction hs with
  | nil => exact Bal.nil
  | op o s h1 h2 _ ih =>
    have ho : swapOp o = o := by
      cases o <;> simp_all [swapOp]
    have hsingle : Bal [o] := Bal.op o [] h1 h2 Bal.nil
    have h := Bal_append ih hsingle
    simpa [ho] using h
  | loop s u _ _ ihs ihu =>
    have h := Bal_append ihu (Bal.loop ((s.reverse).map swapOp) [] ihs Bal.nil)
    have e : ((OP_JMP :: s ++ OP_JNE :: u).reverse).map swapOp
        = (u.reverse).map swapOp
          ++ (OP_JMP :: ((s.reverse).map swapOp ++ OP_JNE :: ([] : List Opcode))) := by
      simp [swapOp]
    rw [e]
    exact h

/-! Equivalence of the counting balance condition and the grammar `Bal`. -/

theorem bal_take_nonneg {l : List Opcode} (h : BalancedOps l) (q : Nat) :
    0 ≤ bdepth (l.take q) := by
  rcases h with ⟨hpre, htot⟩
  rcases lt_or_ge q l.length with hq | hq
  · exact hpre q hq
  · rw [List.take_of_length_le hq]
    omega

theorem jne_take_ge {u : List Opcode} (hu : BalancedOps u) (m : Nat) :
    -1 ≤ bdepth ((OP_JNE :: u).take m) := by
  cases m with
  | zero => simp [bdepth]
  | succ r =>
    rw [List.take_succ_cons, bdepth_cons]
    have := bal_take_nonneg hu r
    simp [jdelta]
    omega

theorem balanced_of_bal {l : List Opcode} (h : Bal l) : BalancedOps l := by
  induction h with
  | nil => exact ⟨by simp [bdepth], rfl⟩
  | op o s h1 h2 _ ih =>
    have hdo : jdelta o = 0 := by
      cases o <;> simp_all [jdelta]
    constructor
    · intro p _
      cases p with
      | zero => simp [bdepth]
      | succ q =>
        rw [List.take_succ_cons, bdepth_cons, hdo]
        have := bal_take_nonneg ih q
        omega
    · rw [bdepth_cons, hdo]
      have := ih.2
      omega
  | loop s u _ _ ihs ihu =>
    constructor
    · intro p _
      cases p with
      | zero => simp [bdepth]
      | succ q =>
        rw [List.cons_append, List.take_succ_cons, bdepth_cons,
          List.take_append_eq_append_take, bdepth_append]
        have h1 := bal_take_nonneg ihs q
        have h2 := jne_take_ge ihu (q - s.length)
        simp only [jdelta]
        omega
    · rw [List.cons_append, bdepth_cons, bdepth_append, bdepth_cons]
      have h1 := ihs.2
      have h2 := ihu.2
      simp only [jdelta]
      omega

theorem balancedops_cons_nonjump {o : Opcode} {rest : List Opcode}
    (hdo : jdelta o = 0) (hb : BalancedOps (o :: rest)) : BalancedOps rest := by
  constructor
  · intro p _
    have h := bal_take_nonneg hb (p + 1)
    rw [List.take_succ_cons, bdepth_cons, hdo] at h
    omega
  · have h := hb.2
    rw [bdepth_cons, hdo] at h
    omega

theorem jdelta_cases (o : Opcode) : jdelta o = 0 ∨ jdelta o = 1 ∨ jdelta o = -1 := by
  cases o <;> simp [jdelta]

theorem eq_jne_of_jdelta {o : Opcode} (h : jdelta o = -1) : o = OP_JNE := by
  cases o <;> simp_all [jdelta]

theorem eq_jmp_of_jdelta {o : Opcode} (h : jdelta o = 1) : o = OP_JMP := by
  cases o <;> simp_all [jdelta]


theorem bal_of_balanced_aux :
    ∀ (n : Nat) (l : List Opcode), l.length ≤ n → BalancedOps l → Bal l := by
  intro n
  induction n with
  | zero =>
    intro l hl _
    rw [List.length_eq_zero.mp (Nat.le_zero.mp hl)]
    exact Bal.nil
  | succ n ih =>
    rintro (_ | ⟨o, rest⟩) hl hb
    · exact Bal.nil
    rcases jdelta_cases o with hdo | hdo | hdo
    · have h1 : o ≠ OP_JMP := by
        intro h
        subst h
        simp [jdelta] at hdo
      have h2 : o ≠ OP_JNE := by
        intro h
        subst h
        simp [jdelta] at hdo
      have hrest : BalancedOps rest := balancedops_cons_nonjump hdo hb
      refine Bal.op o rest h1 h2 (ih rest ?_ hrest)
      simp at hl
      omega
    · -- opening bracket: split at the first prefix returning to depth zero
      have hjmp : o = OP_JMP := eq_jmp_of_jdelta hdo
      subst hjmp
      have hex : ∃ k, bdepth ((OP_JMP :: rest).take (k + 1)) = 0
          ∧ k < (OP_JMP :: rest).length := by
        refine ⟨(OP_JMP :: rest).length - 1, ?_, by simp⟩
        have he : (OP_JMP :: rest).length - 1 + 1 = (OP_JMP :: rest).length := by
          simp
        rw [he, List.take_of_length_le (le_refl _)]
        exact hb.2
      obtain ⟨j, hspec, hmin⟩ :
          ∃ j, (bdepth ((OP_JMP :: rest).take (j + 1)) = 0 ∧ j < (OP_JMP :: rest).length)
            ∧ ∀ m, m < j →
              ¬(bdepth ((OP_JMP :: rest).take (m + 1)) = 0 ∧ m < (OP_JMP :: rest).length) :=
        ⟨Nat.find hex, Nat.find_spec hex, fun m hm => Nat.find_min hex hm⟩
      have hjlt : j < (OP_JMP :: rest).length := hspec.2
      have hdep_pos : ∀ q, 1 ≤ q → q ≤ j → 1 ≤ bdepth ((OP_JMP :: rest).take q) := by
        intro q hq1 hqj
        have hne : bdepth ((OP_JMP :: rest).take q) ≠ 0 := by
          have h := hmin (q - 1) (by omega)
          have he : q - 1 + 1 = q := by omega
          rw [he] at h
          intro h0
          exact h ⟨h0, by omega⟩
        have hge := bal_take_nonneg hb q
        omega
      have hj1 : 1 ≤ j := by
        by_contra h
        have hj0 : j = 0 := by omega
        have h1 := hspec.1
        rw [hj0] at h1
        have he : (OP_JMP :: rest).take 1 = [OP_JMP] := rfl
        rw [he] at h1
        simp [bdepth, jdelta] at h1
      obtain ⟨oj, hoj⟩ : ∃ oj, (OP_JMP :: rest)[j]? = some oj := by
        have := List.getElem?_eq_getElem hjlt
        exact ⟨_, this⟩
      have hstep := bdepth_take_succ (OP_JMP :: rest) j oj hoj
      have hdj : jdelta oj = -1 := by
        have h1 := hspec.1
        have h2 := hdep_pos j hj1 (le_refl j)
        rcases jdelta_cases oj with h | h | h <;> omega
      have htakej : bdepth ((OP_JMP :: rest).take j) = 1 := by
        have h1 := hspec.1
        omega
      have hjne : oj = OP_JNE := eq_jne_of_jdelta hdj
      obtain ⟨m, hm⟩ : ∃ m, j = m + 1 := ⟨j - 1, by omega⟩
      have hmrest : m < rest.length := by
        have h1 : (OP_JMP :: rest).length = rest.length + 1 := by simp
        omega
      have hrest_at : rest[m]? = some OP_JNE := by
        have h1 : (OP_JMP :: rest)[j]? = some OP_JNE := by rw [hoj, hjne]
        rw [hm] at h1
        simpa using h1
      have hsplit : rest = rest.take m ++ OP_JNE :: rest.drop (m + 1) := by
        have h1 : rest = rest.take m ++ rest.drop m := (List.take_append_drop m rest).symm
        have h2 : rest.drop m = rest.get ⟨m, hmrest⟩ :: rest.drop (m + 1) :=
          List.drop_eq_getElem_cons hmrest
        have h3 : rest.get ⟨m, hmrest⟩ = OP_JNE := by
          have h4 := List.getElem?_eq_getElem hmrest
          rw [hrest_at] at h4
          exact (Option.some_inj.mp h4).symm
        rw [h3] at h2
        rw [h2] at h1
        exact h1
      have hslen : (rest.take m).length ≤ n := by
        have h1 := List.length_take m rest
        simp at hl
        omega
      have hulen : (rest.drop (m + 1)).length ≤ n := by
        have h1 := List.length_drop (m + 1) rest
        simp at hl
        omega
      have hbs : BalancedOps (rest.take m) := by
        constructor
        · intro p hp
          have hplen : p < m := by
            have h1 := List.length_take m rest
            omega
          have hsp : (rest.take m).take p = rest.take p := by
            rw [List.take_take]
            congr 1
            omega
          have hlp : (OP_JMP :: rest).take (p + 1) = OP_JMP :: rest.take p := by
            rw [List.take_succ_cons]
          have hd := hdep_pos (p + 1) (by omega) (by omega)
          rw [hlp, bdepth_cons] at hd
          rw [hsp]
          simp [jdelta] at hd
          omega
        · have hlj : (OP_JMP :: rest).take j = OP_JMP :: rest.take m := by
            rw [hm, List.take_succ_cons]
          rw [hlj, bdepth_cons] at htakej
          simp [jdelta] at htakej
          omega
      have hbu : BalancedOps (rest.drop (m + 1)) := by
        have hdropl : (OP_JMP :: rest).drop (j + 1) = rest.drop (m + 1) := by
          rw [hm]
          simp [List.drop_succ_cons]
        constructor
        · intro p _
          have h := bal_take_nonneg hb (j + 1 + p)
          rw [bdepth_take_drop (OP_JMP :: rest) (j + 1) p, hspec.1, hdropl] at h
          omega
        · have h := hb.2
          conv_lhs at h => rw [← List.take_append_drop (j + 1) (OP_JMP :: rest)]
          rw [bdepth_append, hspec.1, hdropl] at h
          omega
      have hfinal : OP_JMP :: rest
          = (OP_JMP :: rest.take m) ++ (OP_JNE :: rest.drop (m + 1)) := by
        conv_lhs => rw [hsplit]
        simp
      rw [hfinal]
      exact Bal.loop (rest.take m) (rest.drop (m + 1)) (ih _ hslen hbs) (ih _ hulen hbu)
    · -- closing bracket first: the first prefix already has negative depth
      exfalso
      have hjne : o = OP_JNE := eq_jne_of_jdelta hdo
      subst hjne
      have h := bal_take_nonneg hb 1
      have he : (OP_JNE :: rest).take 1 = [OP_JNE] := rfl
      rw [he] at h
      simp [bdepth, jdelta] at h

theorem bal_of_balanced {l : List Opcode} (hb : BalancedOps l) : Bal l :=
  bal_of_balanced_aux l.length l (le_refl _) hb

/-! Step equations and structural invariants of the optimizer loop. -/

theorem optimizeGo_nil (stack : List Nat) (acc : List Instruction) :
    optimizeGo [] stack acc = some acc := by
  rw [optimizeGo.eq_def]

theorem optimizeGo_jmp (a : Nat) (rest : List Instruction) (stack : List Nat)
    (acc : List Instruction) :
    optimizeGo (⟨OP_JMP, a⟩ :: rest) stack acc
      = optimizeGo rest (acc.length :: stack) (acc ++ [⟨OP_JMP, a⟩]) := by
  rw [optimizeGo.eq_def]
  simp

theorem optimizeGo_jne_nil (a : Nat) (rest : List Instruction) (acc : List Instruction) :
    optimizeGo (⟨OP_JNE, a⟩ :: rest) [] acc = none := by
  rw [optimizeGo.eq_def]
  simp

theorem optimizeGo_jne (a : Nat) (rest : List Instruction) (p : Nat) (stack : List Nat)
    (acc : List Instruction) :
    optimizeGo (⟨OP_JNE, a⟩ :: rest) (p :: stack) acc
      = optimizeGo rest stack (setArg acc p acc.length ++ [⟨OP_JNE, p⟩]) := by
  rw [optimizeGo.eq_def]
  simp

theorem optimizeGo_fold (o : Opcode) (h1 : o ≠ OP_JMP) (h2 : o ≠ OP_JNE) (a : Nat)
    (rest : List Instruction) (stack : List Nat) (acc : List Instruction) :
    optimizeGo (⟨o, a⟩ :: rest) stack acc
      = optimizeGo (rest.drop (rest.takeWhile (fun b => b.op = o)).length) stack
          (acc ++ [⟨o, a + (rest.takeWhile (fun b => b.op = o)).length⟩]) := by
  rw [optimizeGo.eq_def]
  simp [h1, h2]

theorem isJump_false {o : Opcode} (h1 : o ≠ OP_JMP) (h2 : o ≠ OP_JNE) :
    o.isJump = false := by
  cases o <;> simp_all [Opcode.isJump]

theorem drop_takeWhile_len {α : Type} (p : α → Bool) (l : List α) :
    l.drop (l.takeWhile p).length = l.dropWhile p := by
  induction l with
  | nil => rfl
  | cons x xs ih =>
    by_cases h : p x
    · simp [List.takeWhile_cons, List.dropWhile_cons, h, ih]
    · simp [List.takeWhile_cons, List.dropWhile_cons, h]

theorem opsOf_takeWhile_eq_replicate (o : Opcode) (l : List Instruction) :
    opsOf (l.takeWhile (fun b => b.op = o))
      = List.replicate (l.takeWhile (fun b => b.op = o)).length o := by
  rw [List.eq_replicate_iff]
  refine ⟨by simp [opsOf], ?_⟩
  intro b hb
  rw [opsOf] at hb
  obtain ⟨i, hi, hio⟩ := List.mem_map.mp hb
  have := List.mem_takeWhile_imp hi
  simp at this
  rw [← hio, this]

theorem stackJmp_append (stack : List Nat) (acc l2 : List Instruction)
    (h : StackJmp stack acc) : StackJmp stack (acc ++ l2) := by
  intro p hp
  have h1 := h p hp
  have hlt : p < acc.length := by
    rcases hacc : acc[p]? with _ | i
    · rw [hacc] at h1
      simp at h1
    · exact (List.getElem?_eq_some.mp hacc).1
  rw [List.getElem?_append_left hlt]
  exact h1

theorem stackJmp_setArg (stack : List Nat) (acc : List Instruction) (p0 n : Nat)
    (h : StackJmp stack acc) : StackJmp stack (setArg acc p0 n) := by
  intro p hp
  by_cases hpe : p = p0
  · subst hpe
    rw [setArg_getElem?_self]
    have h1 := h p hp
    rcases hacc : acc[p]? with _ | i
    · rw [hacc] at h1
      simp at h1
    · rw [hacc] at h1
      simp at h1
      simp [hacc, h1]
  · rw [setArg_getElem?_ne _ _ _ _ hpe]
    exact h p hp

theorem argsOK_setArg (acc : List Instruction) (p0 n : Nat)
    (hops : (acc[p0]?).map (fun i => i.op) = some OP_JMP)
    (h : ∀ i ∈ acc, i.op.isJump = true ∨ 1 ≤ i.arg) :
    ∀ i ∈ setArg acc p0 n, i.op.isJump = true ∨ 1 ≤ i.arg := by
  induction acc generalizing p0 with
  | nil => simp [setArg]
  | cons x xs ih =>
    cases p0 with
    | zero =>
      simp only [List.getElem?_cons_zero, Option.map_some'] at hops
      intro i hi
      rcases List.mem_cons.mp hi with hi | hi
      · left
        rw [hi]
        simp [Option.some_inj.mp hops, Opcode.isJump]
      · exact h i (List.mem_cons_of_mem x hi)
    | succ q =>
      simp only [List.getElem?_cons_succ] at hops
      intro i hi
      rcases List.mem_cons.mp hi with hi | hi
      · exact h i (by rw [hi]; exact List.mem_cons_self x xs)
      · exact ih q hops (fun j hj => h j (List.mem_cons_of_mem x hj)) i hi

theorem optGo_general :
    ∀ (n : Nat) (bc : List Instruction) (stack : List Nat) (acc out : List Instruction),
      bc.length ≤ n →
      optimizeGo bc stack acc = some out →
      (∀ i ∈ bc, i.arg = 1) →
      StackJmp stack acc →
      unfoldI out = unfoldI acc ++ opsOf bc
        ∧ ((∀ i ∈ acc, i.op.isJump = true ∨ 1 ≤ i.arg) →
            (∀ i ∈ out, i.op.isJump = true ∨ 1 ≤ i.arg)) := by
  intro n
  induction n with
  | zero =>
    intro bc stack acc out hl hopt _ _
    have hbc : bc = [] := List.length_eq_zero.mp (Nat.le_zero.mp hl)
    subst hbc
    rw [optimizeGo_nil] at hopt
    cases Option.some_inj.mp hopt
    exact ⟨by simp [opsOf, unfoldI], fun h => h⟩
  | succ n ih =>
    rintro (_ | ⟨⟨io, ia⟩, rest⟩) stack acc out hl hopt hargs hstk
    · rw [optimizeGo_nil] at hopt
      cases Option.some_inj.mp hopt
      exact ⟨by simp [opsOf, unfoldI], fun h => h⟩
    have hia : ia = 1 := hargs ⟨io, ia⟩ (List.mem_cons_self _ _)
    subst hia
    have hlrest : rest.length ≤ n := by
      simp at hl
      omega
    by_cases hjm : io = OP_JMP
    · subst hjm
      rw [optimizeGo_jmp] at hopt
      have hstk2 : StackJmp (acc.length :: stack) (acc ++ [⟨OP_JMP, 1⟩]) := by
        intro p hp
        rcases List.mem_cons.mp hp with hp | hp
        · subst hp
          rw [List.getElem?_concat_length]
          rfl
        · exact stackJmp_append stack acc _ hstk p hp
      obtain ⟨hu, ha⟩ := ih rest _ _ out hlrest hopt
        (fun i hi => hargs i (List.mem_cons_of_mem _ hi)) hstk2
      constructor
      · rw [hu, unfoldI_append]
        simp [unfoldI, Opcode.isJump, opsOf]
      · intro hacc
        refine ha ?_
        intro i hi
        rcases List.mem_append.mp hi with hi | hi
        · exact hacc i hi
        · left
          simp at hi
          rw [hi]
          rfl
    by_cases hjn : io = OP_JNE
    · subst hjn
      cases stack with
      | nil =>
        rw [optimizeGo_jne_nil] at hopt
        simp at hopt
      | cons p stack =>
        rw [optimizeGo_jne] at hopt
        have hp0 : (acc[p]?).map (fun i => i.op) = some OP_JMP :=
          hstk p (List.mem_cons_self _ _)
        obtain ⟨ip, hip, hipop⟩ : ∃ ip, acc[p]? = some ip ∧ ip.op = OP_JMP := by
          rcases hacc : acc[p]? with _ | ip
          · rw [hacc] at hp0
            simp at hp0
          · rw [hacc] at hp0
            simp at hp0
            exact ⟨ip, rfl, hp0⟩
        have hstk2 : StackJmp stack (setArg acc p acc.length ++ [⟨OP_JNE, p⟩]) :=
          stackJmp_append _ _ _ (stackJmp_setArg _ _ _ _ (fun q hq => hstk q (List.mem_cons_of_mem _ hq)))
        obtain ⟨hu, ha⟩ := ih rest _ _ out hlrest hopt
          (fun i hi => hargs i (List.mem_cons_of_mem _ hi)) hstk2
        constructor
        · rw [hu, unfoldI_append,
            unfoldI_setArg_jump acc p acc.length ip hip (by rw [hipop]; rfl)]
          simp [unfoldI, Opcode.isJump, opsOf]
        · intro hacc
          refine ha ?_
          intro i hi
          rcases List.mem_append.mp hi with hi | hi
          · exact argsOK_setArg acc p acc.length hp0 hacc i hi
          · left
            simp at hi
            rw [hi]
            rfl
    · -- a foldable opcode: absorb the run
      rw [optimizeGo_fold io hjm hjn 1 rest stack acc] at hopt
      have hld : (rest.drop (rest.takeWhile (fun b => b.op = io)).length).length ≤ n := by
        rw [List.length_drop]
        omega
      obtain ⟨hu, ha⟩ := ih _ _ _ out hld hopt
        (fun i hi => hargs i (List.mem_cons_of_mem _ (List.mem_of_mem_drop hi)))
        (stackJmp_append stack acc _ hstk)
      constructor
      · rw [hu, unfoldI_append]
        have hops : opsOf (Instruction.mk io 1 :: rest)
            = List.replicate (1 + (rest.takeWhile (fun b => b.op = io)).length) io
              ++ opsOf (rest.drop (rest.takeWhile (fun b => b.op = io)).length) := by
          have hrest : rest = rest.takeWhile (fun b => b.op = io)
              ++ rest.drop (rest.takeWhile (fun b => b.op = io)).length := by
            rw [drop_takeWhile_len]
            exact (List.takeWhile_append_dropWhile _ _).symm
          calc opsOf (Instruction.mk io 1 :: rest)
              = io :: opsOf rest := by simp [opsOf]
            _ = io :: (opsOf (rest.takeWhile (fun b => b.op = io))
                  ++ opsOf (rest.drop (rest.takeWhile (fun b => b.op = io)).length)) := by
                conv_lhs => rw [hrest]
                simp [opsOf]
            _ = _ := by
                rw [opsOf_takeWhile_eq_replicate]
                rw [Nat.add_comm 1, List.replicate_succ]
                simp
        rw [hops]
        have hunf : unfoldI [Instruction.mk io
              (1 + (rest.takeWhile (fun b => b.op = io)).length)]
            = List.replicate (1 + (rest.takeWhile (fun b => b.op = io)).length) io := by
          simp [unfoldI, isJump_false hjm hjn]
        rw [hunf]
        simp
      · intro hacc
        refine ha ?_
        intro i hi
        rcases List.mem_append.mp hi with hi | hi
        · exact hacc i hi
        · right
          simp at hi
          rw [hi]
          simp

/-! Segment lemmas and transfer of `PairsOK` along list construction. -/

theorem seg_cons (x : Instruction) (l : List Instruction) (i j : Nat) :
    seg (x :: l) (i + 1) (j + 1) = seg l i j := by
  rw [seg, seg, List.drop_succ_cons]
  congr 1
  omega

theorem seg_append_first (l1 l2 : List Instruction) (i j : Nat) (hj : j ≤ l1.length) :
    seg (l1 ++ l2) i j = seg l1 i j := by
  rw [seg, seg, List.drop_append_eq_append_drop, List.take_append_eq_append_take]
  rw [show j - i - (l1.drop i).length = 0 from by rw [List.length_drop]; omega,
    List.take_zero, List.append_nil]

theorem seg_append_right (l1 l2 : List Instruction) (i j : Nat) :
    seg (l1 ++ l2) (l1.length + i) (l1.length + j) = seg l2 i j := by
  rw [seg, seg, List.drop_append_eq_append_drop,
    List.drop_of_length_le (by omega : l1.length ≤ l1.length + i)]
  rw [show l1.length + i - l1.length = i from by omega]
  rw [List.nil_append]
  congr 1
  omega

theorem pairsOK_nil (b : Nat) : PairsOK b [] := by
  constructor
  · intro c t hc
    simp at hc
  · intro c t hc
    simp at hc

theorem pairsOK_cons_nonjump (b : Nat) (i : Instruction)
    (h1 : i.op ≠ OP_JMP) (h2 : i.op ≠ OP_JNE) (Δ : List Instruction)
    (h : PairsOK (b + 1) Δ) : PairsOK b (i :: Δ) := by
  constructor
  · intro c t hc
    cases c with
    | zero =>
      rw [List.getElem?_cons_zero] at hc
      exact absurd (congrArg Instruction.op (Option.some_inj.mp hc)) h1
    | succ c =>
      rw [List.getElem?_cons_succ] at hc
      obtain ⟨d, ht, hcd, hd, hseg⟩ := h.1 c t hc
      refine ⟨d + 1, by omega, by omega, ?_, ?_⟩
      · rw [List.getElem?_cons_succ, hd]
        congr 2
        omega
      · rw [seg_cons]
        exact hseg
  · intro c t hc
    cases c with
    | zero =>
      rw [List.getElem?_cons_zero] at hc
      exact absurd (congrArg Instruction.op (Option.some_inj.mp hc)) h2
    | succ c =>
      rw [List.getElem?_cons_succ] at hc
      obtain ⟨d, ht, hdc, hd, hseg⟩ := h.2 c t hc
      refine ⟨d + 1, by omega, by omega, ?_, ?_⟩
      · rw [List.getElem?_cons_succ, hd]
        congr 2
        omega
      · rw [seg_cons]
        exact hseg

theorem pairsOK_loop (b : Nat) (Δ1 Δ2 : List Instruction)
    (h1 : PairsOK (b + 1) Δ1) (h2 : PairsOK (b + Δ1.length + 2) Δ2)
    (hb : Bal (unfoldI Δ1)) :
    PairsOK b
      (Instruction.mk OP_JMP (b + Δ1.length + 1)
        :: (Δ1 ++ Instruction.mk OP_JNE b :: Δ2)) := by
  have hgetA : ∀ c, c < Δ1.length →
      (Instruction.mk OP_JMP (b + Δ1.length + 1)
        :: (Δ1 ++ Instruction.mk OP_JNE b :: Δ2))[c + 1]? = Δ1[c]? := by
    intro c hc
    rw [List.getElem?_cons_succ, List.getElem?_append_left hc]
  have hgetB :
      (Instruction.mk OP_JMP (b + Δ1.length + 1)
        :: (Δ1 ++ Instruction.mk OP_JNE b :: Δ2))[Δ1.length + 1]?
        = some (Instruction.mk OP_JNE b) := by
    rw [List.getElem?_cons_succ, List.getElem?_append_right (le_refl _)]
    simp
  have hgetC : ∀ c,
      (Instruction.mk OP_JMP (b + Δ1.length + 1)
        :: (Δ1 ++ Instruction.mk OP_JNE b :: Δ2))[Δ1.length + 2 + c]? = Δ2[c]? := by
    intro c
    rw [show Δ1.length + 2 + c = (Δ1.length + 1 + c) + 1 from by omega,
      List.getElem?_cons_succ, List.getElem?_append_right (by omega)]
    rw [show Δ1.length + 1 + c - Δ1.length = c + 1 from by omega,
      List.getElem?_cons_succ]
  have hsegMid :
      seg (Instruction.mk OP_JMP (b + Δ1.length + 1)
        :: (Δ1 ++ Instruction.mk OP_JNE b :: Δ2)) 1 (Δ1.length + 1) = Δ1 := by
    have h := seg_cons (Instruction.mk OP_JMP (b + Δ1.length + 1))
      (Δ1 ++ Instruction.mk OP_JNE b :: Δ2) 0 Δ1.length
    rw [show (0 : Nat) + 1 = 1 from rfl] at h
    rw [h, seg, List.drop_zero, Nat.sub_zero, List.take_left]
  have hsegIn : ∀ i j, j ≤ Δ1.length →
      seg (Instruction.mk OP_JMP (b + Δ1.length + 1)
        :: (Δ1 ++ Instruction.mk OP_JNE b :: Δ2)) (i + 1) (j + 1) = seg Δ1 i j := by
    intro i j hj
    rw [seg_cons, seg_append_first _ _ _ _ hj]
  have hsegOut : ∀ i j,
      seg (Instruction.mk OP_JMP (b + Δ1.length + 1)
        :: (Δ1 ++ Instruction.mk OP_JNE b :: Δ2))
          (Δ1.length + 2 + i) (Δ1.length + 2 + j) = seg Δ2 i j := by
    intro i j
    rw [show Δ1.length + 2 + i = (Δ1.length + 1 + i) + 1 from by omega,
      show Δ1.length + 2 + j = (Δ1.length + 1 + j) + 1 from by omega, seg_cons]
    have he : Δ1 ++ Instruction.mk OP_JNE b :: Δ2
        = (Δ1 ++ [Instruction.mk OP_JNE b]) ++ Δ2 := by simp
    have hl : Δ1.length + 1 + i = (Δ1 ++ [Instruction.mk OP_JNE b]).length + i := by
      simp
    have hl2 : Δ1.length + 1 + j = (Δ1 ++ [Instruction.mk OP_JNE b]).length + j := by
      simp
    rw [he, hl, hl2, seg_append_right]
  constructor
  · intro c t hc
    cases c with
    | zero =>
      rw [List.getElem?_cons_zero] at hc
      simp only [Option.some_inj, Instruction.mk.injEq] at hc
      refine ⟨Δ1.length + 1, by omega, by omega, ?_, ?_⟩
      · rw [hgetB]
        simp
      · rw [show (0 : Nat) + 1 = 1 from rfl, hsegMid]
        exact hb
    | succ c0 =>
      by_cases hcl : c0 < Δ1.length
      · rw [hgetA c0 hcl] at hc
        obtain ⟨d, ht, hcd, hd, hseg⟩ := h1.1 c0 t hc
        obtain ⟨hdlt, _⟩ := List.getElem?_eq_some.mp hd
        refine ⟨d + 1, by omega, by omega, ?_, ?_⟩
        · rw [hgetA d hdlt, hd]
          congr 2
          omega
        · rw [hsegIn (c0 + 1) d (le_of_lt hdlt)]
          exact hseg
      · by_cases hce : c0 = Δ1.length
        · rw [hce, hgetB] at hc
          simp at hc
        · obtain ⟨c2, hc2e⟩ : ∃ c2, c0 + 1 = Δ1.length + 2 + c2 :=
            ⟨c0 + 1 - (Δ1.length + 2), by omega⟩
          rw [hc2e, hgetC c2] at hc
          obtain ⟨d, ht, hcd, hd, hseg⟩ := h2.1 c2 t hc
          refine ⟨Δ1.length + 2 + d, by omega, ?_, ?_, ?_⟩
          · omega
          · rw [hgetC d, hd]
            congr 2
            omega
          · rw [hc2e, show Δ1.length + 2 + c2 + 1 = Δ1.length + 2 + (c2 + 1) from by omega,
              hsegOut (c2 + 1) d]
            exact hseg
  · intro c t hc
    cases c with
    | zero =>
      rw [List.getElem?_cons_zero] at hc
      simp at hc
    | succ c0 =>
      by_cases hcl : c0 < Δ1.length
      · rw [hgetA c0 hcl] at hc
        obtain ⟨d, ht, hdc, hd, hseg⟩ := h1.2 c0 t hc
        obtain ⟨hdlt, _⟩ := List.getElem?_eq_some.mp hd
        refine ⟨d + 1, by omega, by omega, ?_, ?_⟩
        · rw [hgetA d hdlt, hd]
          congr 2
          omega
        · rw [hsegIn (d + 1) c0 (le_of_lt hcl)]
          exact hseg
      · by_cases hce : c0 = Δ1.length
        · rw [hce, hgetB] at hc
          simp only [Option.some_inj, Instruction.mk.injEq] at hc
          refine ⟨0, by omega, by omega, ?_, ?_⟩
          · rw [List.getElem?_cons_zero]
            congr 2
            omega
          · rw [show (0 : Nat) + 1 = 1 from rfl, hce, hsegMid]
            exact hb
        · obtain ⟨c2, hc2e⟩ : ∃ c2, c0 + 1 = Δ1.length + 2 + c2 :=
            ⟨c0 + 1 - (Δ1.length + 2), by omega⟩
          rw [hc2e, hgetC c2] at hc
          obtain ⟨d, ht, hdc, hd, hseg⟩ := h2.2 c2 t hc
          refine ⟨Δ1.length + 2 + d, by omega, ?_, ?_, ?_⟩
          · omega
          · rw [hgetC d, hd]
            congr 2
            omega
          · rw [hc2e, show Δ1.length + 2 + d + 1 = Δ1.length + 2 + (d + 1) from by omega,
              hsegOut (d + 1) c2]
            exact hseg

/-! Inversion of the `Bal` grammar and run decomposition lemmas. -/

theorem bal_cons_nonjump_inv {o : Opcode} {s : List Opcode} (h1 : o ≠ OP_JMP)
    (h : Bal (o :: s)) : Bal s := by
  generalize he : o :: s = l at h
  cases h with
  | nil => simp at he
  | op o2 s2 g1 g2 hs =>
    rw [List.cons.injEq] at he
    obtain ⟨he1, he2⟩ := he
    rw [he2]
    exact hs
  | loop s2 t2 hs ht =>
    rw [List.cons_append, List.cons.injEq] at he
    exact absurd he.1 h1

theorem bal_jne_inv {s : List Opcode} (h : Bal (OP_JNE :: s)) : False := by
  generalize he : OP_JNE :: s = l at h
  cases h with
  | nil => simp at he
  | op o2 s2 g1 g2 hs =>
    rw [List.cons.injEq] at he
    exact g2 he.1.symm
  | loop s2 t2 hs ht =>
    rw [List.cons_append, List.cons.injEq] at he
    exact Opcode.noConfusion he.1

theorem bal_jmp_inv {r : List Opcode} (h : Bal (OP_JMP :: r)) :
    ∃ s t, r = s ++ OP_JNE :: t ∧ Bal s ∧ Bal t := by
  generalize he : OP_JMP :: r = l at h
  cases h with
  | nil => simp at he
  | op o2 s2 g1 g2 hs =>
    rw [List.cons.injEq] at he
    exact absurd he.1.symm g1
  | loop s2 t2 hs ht =>
    rw [List.cons_append, List.cons.injEq] at he
    exact ⟨s2, t2, he.2, hs, ht⟩

theorem takeWhile_self_replicate (o : Opcode) (s : List Opcode) :
    s.takeWhile (fun x => x = o)
      = List.replicate (s.takeWhile (fun x => x = o)).length o := by
  rw [List.eq_replicate_iff]
  refine ⟨rfl, ?_⟩
  intro b hb
  have h := List.mem_takeWhile_imp hb
  simpa using h

theorem bal_dropRun (o : Opcode) (h1 : o ≠ OP_JMP) :
    ∀ s : List Opcode, Bal s → Bal (s.dropWhile (fun x => x = o)) := by
  intro s
  induction s with
  | nil =>
    intro h
    simpa using h
  | cons x xs ih =>
    intro h
    rw [List.dropWhile_cons]
    by_cases hx : x = o
    · simp only [hx, decide_True, if_true]
      exact ih (bal_cons_nonjump_inv (by rw [hx]; exact h1) h)
    · simp only [hx, decide_False, if_false]
      exact h

theorem compile_append (a b : List Opcode) :
    compile (a ++ b) = compile a ++ compile b := by
  simp [compile]

theorem takeWhile_compile_append (o : Opcode) (h2 : o ≠ OP_JNE) (s : List Opcode)
    (R : List Instruction) (hR : EndsJNE R) :
    (compile s ++ R).takeWhile (fun b => b.op = o)
      = compile (s.takeWhile (fun x => x = o)) := by
  induction s with
  | nil =>
    rcases hR with rfl | ⟨a, r, rfl⟩
    · rfl
    · have h2s : ¬(OP_JNE = o) := fun h => h2 h.symm
      simp only [compile, List.map_nil, List.nil_append, List.takeWhile_nil]
      rw [List.takeWhile_cons]
      simp [h2s]
  | cons x xs ih =>
    by_cases hx : x = o
    · subst hx
      simp only [compile, List.map_cons, List.cons_append, List.takeWhile_cons]
      simp only [compile] at ih
      simp [ih]
    · simp only [compile, List.map_cons, List.cons_append, List.takeWhile_cons]
      simp [hx, compile]

theorem dropWhile_compile_append (o : Opcode) (h2 : o ≠ OP_JNE) (s : List Opcode)
    (R : List Instruction) (hR : EndsJNE R) :
    (compile s ++ R).dropWhile (fun b => b.op = o)
      = compile (s.dropWhile (fun x => x = o)) ++ R := by
  induction s with
  | nil =>
    rcases hR with rfl | ⟨a, r, rfl⟩
    · rfl
    · have h2s : ¬(OP_JNE = o) := fun h => h2 h.symm
      simp only [compile, List.map_nil, List.nil_append, List.dropWhile_nil]
      rw [List.dropWhile_cons]
      simp [h2s]
  | cons x xs ih =>
    by_cases hx : x = o
    · subst hx
      simp only [compile, List.map_cons, List.cons_append, List.dropWhile_cons]
      simp only [compile] at ih
      simp [ih]
    · simp only [compile, List.map_cons, List.cons_append, List.dropWhile_cons]
      simp [hx, compile]

theorem optGo_bal :
    ∀ (n : Nat) (s : List Opcode), s.length ≤ n → Bal s →
      ∀ (R : List Instruction) (stack : List Nat) (acc : List Instruction), EndsJNE R →
        ∃ Δ, optimizeGo (compile s ++ R) stack acc = optimizeGo R stack (acc ++ Δ)
          ∧ unfoldI Δ = s ∧ PairsOK acc.length Δ := by
  intro n
  induction n with
  | zero =>
    intro s hl _ R stack acc _
    obtain rfl := List.length_eq_zero.mp (Nat.le_zero.mp hl)
    refine ⟨[], ?_, rfl, pairsOK_nil _⟩
    simp [compile]
  | succ n ih =>
    rintro (_ | ⟨o, s0⟩) hl hbal R stack acc hR
    · refine ⟨[], ?_, rfl, pairsOK_nil _⟩
      simp [compile]
    by_cases hjm : o = OP_JMP
    · subst hjm
      obtain ⟨s1, s2, rfl, hb1, hb2⟩ := bal_jmp_inv hbal
      have hlen : s1.length ≤ n ∧ s2.length ≤ n := by
        simp at hl
        omega
      have hrw : compile (OP_JMP :: (s1 ++ OP_JNE :: s2)) ++ R
          = Instruction.mk OP_JMP 1
            :: (compile s1 ++ (Instruction.mk OP_JNE 1 :: (compile s2 ++ R))) := by
        simp [compile]
      rw [hrw, optimizeGo_jmp]
      obtain ⟨Δ1, heq1, hu1, hp1⟩ := ih s1 hlen.1 hb1
        (Instruction.mk OP_JNE 1 :: (compile s2 ++ R)) (acc.length :: stack)
        (acc ++ [Instruction.mk OP_JMP 1]) (Or.inr ⟨1, _, rfl⟩)
      rw [heq1, optimizeGo_jne]
      have hacc1 : (acc ++ [Instruction.mk OP_JMP 1]) ++ Δ1
          = acc ++ Instruction.mk OP_JMP 1 :: Δ1 := by simp
      have hcur : ((acc ++ [Instruction.mk OP_JMP 1]) ++ Δ1).length
          = acc.length + Δ1.length + 1 := by
        simp
        omega
      have hset : setArg ((acc ++ [Instruction.mk OP_JMP 1]) ++ Δ1) acc.length
            (((acc ++ [Instruction.mk OP_JMP 1]) ++ Δ1).length)
          = acc ++ Instruction.mk OP_JMP (acc.length + Δ1.length + 1) :: Δ1 := by
        rw [hcur, hacc1, setArg_append_firstlen]
      rw [hset]
      obtain ⟨Δ2, heq2, hu2, hp2⟩ := ih s2 hlen.2 hb2 R stack
        ((acc ++ Instruction.mk OP_JMP (acc.length + Δ1.length + 1) :: Δ1)
          ++ [Instruction.mk OP_JNE acc.length]) hR
      rw [heq2]
      refine ⟨Instruction.mk OP_JMP (acc.length + Δ1.length + 1)
        :: (Δ1 ++ Instruction.mk OP_JNE acc.length :: Δ2), ?_, ?_, ?_⟩
      · congr 1
        simp
      · simp only [unfoldI, Opcode.isJump, if_true, unfoldI_append, hu1, hu2]
        simp
      · have hq1 : PairsOK (acc.length + 1) Δ1 := by
          have hlen1 : (acc ++ [Instruction.mk OP_JMP 1]).length = acc.length + 1 := by
            simp
          rw [hlen1] at hp1
          exact hp1
        have hq2 : PairsOK (acc.length + Δ1.length + 2) Δ2 := by
          have hlen2 : ((acc ++ Instruction.mk OP_JMP (acc.length + Δ1.length + 1) :: Δ1)
              ++ [Instruction.mk OP_JNE acc.length]).length
              = acc.length + Δ1.length + 2 := by
            simp
            omega
          rw [hlen2] at hp2
          exact hp2
        have hbu : Bal (unfoldI Δ1) := by
          rw [hu1]
          exact hb1
        exact pairsOK_loop acc.length Δ1 Δ2 hq1 hq2 hbu
    by_cases hjn : o = OP_JNE
    · subst hjn
      exact (bal_jne_inv hbal).elim
    · have hb0 : Bal s0 := bal_cons_nonjump_inv hjm hbal
      have hb1 : Bal (s0.dropWhile (fun x => x = o)) := bal_dropRun o hjm s0 hb0
      have hrw : compile (o :: s0) ++ R = Instruction.mk o 1 :: (compile s0 ++ R) := by
        simp [compile]
      rw [hrw, optimizeGo_fold o hjm hjn 1]
      have htw := takeWhile_compile_append o hjn s0 R hR
      have hdw := dropWhile_compile_append o hjn s0 R hR
      have hlen_tw : ((compile s0 ++ R).takeWhile (fun b => b.op = o)).length
          = (s0.takeWhile (fun x => x = o)).length := by
        rw [htw]
        simp [compile]
      have hdrop : (compile s0 ++ R).drop
            ((compile s0 ++ R).takeWhile (fun b => b.op = o)).length
          = compile (s0.dropWhile (fun x => x = o)) ++ R := by
        rw [drop_takeWhile_len, hdw]
      rw [hdrop, hlen_tw]
      have hlens1 : (s0.dropWhile (fun x => x = o)).length ≤ n := by
        have h1 : s0.dropWhile (fun x => x = o)
            = s0.drop (s0.takeWhile (fun x => x = o)).length :=
          (drop_takeWhile_len _ _).symm
        rw [h1, List.length_drop]
        simp at hl
        omega
      obtain ⟨Δ1, heq1, hu1, hp1⟩ := ih (s0.dropWhile (fun x => x = o)) hlens1 hb1 R stack
        (acc ++ [Instruction.mk o (1 + (s0.takeWhile (fun x => x = o)).length)]) hR
      rw [heq1]
      refine ⟨Instruction.mk o (1 + (s0.takeWhile (fun x => x = o)).length) :: Δ1,
        ?_, ?_, ?_⟩
      · congr 1
        simp
      · have hs0 : s0 = s0.takeWhile (fun x => x = o) ++ s0.dropWhile (fun x => x = o) :=
          (List.takeWhile_append_dropWhile _ _).symm
        rw [unfoldI]
        simp only [isJump_false hjm hjn, Bool.false_eq_true, if_false]
        rw [hu1]
        conv_rhs => rw [hs0, takeWhile_self_replicate o s0]
        rw [Nat.add_comm 1, List.replicate_succ]
        simp
      · refine pairsOK_cons_nonjump acc.length _ hjm hjn Δ1 ?_
        have hlen1 : (acc ++ [Instruction.mk o
            (1 + (s0.takeWhile (fun x => x = o)).length)]).length = acc.length + 1 := by
          simp
        rw [hlen1] at hp1
        exact hp1

theorem optimize_bal (ops : List Opcode) (hb : Bal ops) :
    ∃ out, optimize (compile ops) = some out ∧ unfoldI out = ops ∧ PairsOK 0 out := by
  obtain ⟨Δ, heq, hu, hp⟩ :=
    optGo_bal ops.length ops (le_refl _) hb [] [] [] (Or.inl rfl)
  refine ⟨Δ, ?_, hu, hp⟩
  rw [optimize, show compile ops = compile ops ++ [] from by simp, heq, List.nil_append,
    optimizeGo_nil]

theorem drop_eq_cons_of_getElem {α : Type} (l : List α) (c : Nat) (x : α)
    (h : l[c]? = some x) : l.drop c = x :: l.drop (c + 1) := by
  obtain ⟨hlt, he⟩ := List.getElem?_eq_some.mp h
  rw [List.drop_eq_getElem_cons hlt, he]

theorem seg_append_drop (l : List Instruction) (i j : Nat) (hij : i ≤ j) :
    seg l i j ++ l.drop j = l.drop i := by
  rw [seg]
  have h := List.take_append_drop (j - i) (l.drop i)
  rw [List.drop_drop] at h
  rw [show i + (j - i) = j from by omega] at h
  exact h

theorem take_add_seg (l : List Instruction) (i j : Nat) (hij : i ≤ j) :
    l.take j = l.take i ++ seg l i j := by
  rw [seg, ← List.take_add]
  congr 1
  omega

theorem jump_matchF (ops : List Opcode) (out : List Instruction)
    (hu : unfoldI out = ops) (hp : PairsOK 0 out) (c t : Nat)
    (hc : out[c]? = some ⟨OP_JMP, t⟩) :
    (out[t]?).map (fun i => i.op) = some OP_JNE
      ∧ matchF ops (posOf out c) = some (posOf out t) := by
  obtain ⟨d, ht, hcd, hd, hseg⟩ := hp.1 c t hc
  have htd : t = d := by omega
  subst htd
  have hdc : out[t]? = some ⟨OP_JNE, c⟩ := by
    rw [hd]
    simp
  constructor
  · rw [hdc]
    rfl
  · have h1 : ops.drop (posOf out c) = OP_JMP :: unfoldI (out.drop (c + 1)) := by
      rw [← hu, unfoldI_drop, drop_eq_cons_of_getElem out c _ hc]
      rw [unfoldI]
      rfl
    have h2 : ops.drop (posOf out c + 1) = unfoldI (out.drop (c + 1)) := by
      have h3 := congrArg (List.drop 1) h1
      rw [List.drop_drop] at h3
      simpa using h3
    have h4 : out.drop (c + 1) = seg out (c + 1) t ++ out.drop t :=
      (seg_append_drop out (c + 1) t (by omega)).symm
    have h5 : out.drop t = Instruction.mk OP_JNE c :: out.drop (t + 1) :=
      drop_eq_cons_of_getElem out t _ hdc
    have h6 : ops.drop (posOf out c + 1)
        = unfoldI (seg out (c + 1) t) ++ (OP_JNE :: unfoldI (out.drop (t + 1))) := by
      rw [h2, h4, unfoldI_append, h5]
      rw [unfoldI]
      rfl
    have h7 : go (ops.drop (posOf out c + 1)) 0
        = some (unfoldI (seg out (c + 1) t)).length := by
      rw [h6]
      exact go_bal_start hseg _
    have h8 : posOf out t = posOf out c + 1 + (unfoldI (seg out (c + 1) t)).length := by
      rw [posOf, take_add_seg out (c + 1) t (by omega), unfoldI_append, List.length_append]
      rw [← posOf, posOf_succ_jump out c _ hc rfl]
    rw [matchF, h7, h8]
    rfl

theorem jump_matchB (ops : List Opcode) (out : List Instruction)
    (hu : unfoldI out = ops) (hp : PairsOK 0 out) (c t : Nat)
    (hc : out[c]? = some ⟨OP_JNE, t⟩) :
    (out[t]?).map (fun i => i.op) = some OP_JMP
      ∧ matchB ops (posOf out c) = some (posOf out t) := by
  obtain ⟨d, ht, hdc, hd, hseg⟩ := hp.2 c t hc
  have htd : t = d := by omega
  subst htd
  have hdc2 : out[t]? = some ⟨OP_JMP, c⟩ := by
    rw [hd]
    simp
  constructor
  · rw [hdc2]
    rfl
  · have h1 : out.take c = (out.take t ++ [Instruction.mk OP_JMP c]) ++ seg out (t + 1) c := by
      rw [take_add_seg out (t + 1) c (by omega), List.take_succ, hdc2]
      rfl
    have h2 : ops.take (posOf out c)
        = (unfoldI (out.take t) ++ [OP_JMP]) ++ unfoldI (seg out (t + 1) c) := by
      rw [← hu, unfoldI_take, h1, unfoldI_append, unfoldI_append]
      rfl
    have h3 : ((ops.take (posOf out c)).reverse).map swapOp
        = ((seg out (t + 1) c |> unfoldI).reverse.map swapOp)
          ++ (OP_JNE :: ((out.take t |> unfoldI).reverse.map swapOp)) := by
      rw [h2]
      simp [swapOp]
    have h7 : go (((ops.take (posOf out c)).reverse).map swapOp) 0
        = some ((unfoldI (seg out (t + 1) c)).reverse.map swapOp).length := by
      rw [h3]
      exact go_bal_start (swapRev_bal hseg) _
    have h8 : posOf out c = posOf out t + 1 + (unfoldI (seg out (t + 1) c)).length := by
      rw [posOf, take_add_seg out (t + 1) c (by omega), unfoldI_append, List.length_append]
      rw [← posOf, posOf_succ_jump out t _ hdc2 rfl]
    rw [matchB, h7]
    simp only [Option.map_some', List.length_map, List.length_reverse]
    rw [h8]
    congr 1
    omega

/-! Generic lemmas about the fueled runner and the iterated step function. -/

theorem runFuel_mono {α : Type} (h : α → Bool) (step : α → Option α) :
    ∀ (f g : Nat) (x r : α), f ≤ g → runFuel h step f x = some r →
      runFuel h step g x = some r := by
  intro f
  induction f with
  | zero =>
    intro g x r _ hr
    simp [runFuel] at hr
  | succ f ih =>
    intro g x r hfg hr
    obtain ⟨g0, rfl⟩ : ∃ g0, g = g0 + 1 := ⟨g - 1, by omega⟩
    rw [runFuel] at hr ⊢
    by_cases hh : h x
    · rw [if_pos hh] at hr ⊢
      exact hr
    · rw [if_neg hh] at hr ⊢
      cases hs : step x with
      | none =>
        rw [hs] at hr
        simp at hr
      | some y =>
        rw [hs, Option.some_bind] at hr
        rw [Option.some_bind]
        exact ih g0 y r (by omega) hr

theorem stepN_runFuel {α : Type} (h : α → Bool) (step : α → Option α)
    (hhs : ∀ x, h x = true → step x = none) :
    ∀ (k : Nat) (x y : α), stepN step k x = some y →
      ∀ (f : Nat) (r : α), runFuel h step f y = some r →
        runFuel h step (k + f) x = some r := by
  intro k
  induction k with
  | zero =>
    intro x y hxy f r hr
    simp [stepN] at hxy
    rw [Nat.zero_add, hxy]
    exact hr
  | succ k ih =>
    intro x y hxy f r hr
    rw [stepN] at hxy
    cases hst : step x with
    | none =>
      rw [hst] at hxy
      simp at hxy
    | some x1 =>
      rw [hst, Option.some_bind] at hxy
      have hhx : ¬(h x = true) := by
        intro hc
        rw [hhs x hc] at hst
        cases hst
      rw [show k + 1 + f = (k + f) + 1 from by omega, runFuel, if_neg hhx, hst,
        Option.some_bind]
      exact ih x1 y hxy f r hr

theorem runFuel_stepN {α : Type} (h : α → Bool) (step : α → Option α)
    (hhs : ∀ x, h x = true → step x = none) :
    ∀ (k : Nat) (x y : α), stepN step k x = some y →
      ∀ (f : Nat) (r : α), runFuel h step f x = some r →
        k ≤ f ∧ runFuel h step (f - k) y = some r := by
  intro k
  induction k with
  | zero =>
    intro x y hxy f r hr
    simp [stepN] at hxy
    rw [hxy] at hr
    exact ⟨by omega, by simpa using hr⟩
  | succ k ih =>
    intro x y hxy f r hr
    rw [stepN] at hxy
    cases hst : step x with
    | none =>
      rw [hst] at hxy
      simp at hxy
    | some x1 =>
      rw [hst, Option.some_bind] at hxy
      have hhx : ¬(h x = true) := by
        intro hc
        rw [hhs x hc] at hst
        cases hst
      cases f with
      | zero => simp [runFuel] at hr
      | succ f0 =>
        rw [runFuel, if_neg hhx, hst, Option.some_bind] at hr
        obtain ⟨hkf, hrun⟩ := ih x1 y hxy f0 r hr
        refine ⟨by omega, ?_⟩
        rw [show f0 + 1 - (k + 1) = f0 - k from by omega]
        exact hrun

theorem runFuel_halt {α : Type} (h : α → Bool) (step : α → Option α)
    (f : Nat) (x r : α) (hr : runFuel h step f x = some r) (hh : h x = true) : r = x := by
  cases f with
  | zero => simp [runFuel] at hr
  | succ f =>
    rw [runFuel, if_pos hh] at hr
    exact (Option.some_inj.mp hr).symm

theorem runFuel_halt_succ {α : Type} (h : α → Bool) (step : α → Option α)
    (f : Nat) (x : α) (hh : h x = true) : runFuel h step (f + 1) x = some x := by
  rw [runFuel, if_pos hh]

/-! State algebra of the BF machine. -/

theorem writeCell_dp (st : St) (v : Int) : (writeCell st v).dp = st.dp := rfl

theorem writeCell_inp (st : St) (v : Int) : (writeCell st v).inp = st.inp := rfl

theorem writeCell_out (st : St) (v : Int) : (writeCell st v).out = st.out := rfl

theorem readCell_writeCell (st : St) (v : Int) : readCell (writeCell st v) = v := by
  simp [readCell, writeCell]

theorem writeCell_writeCell (st : St) (a b : Int) :
    writeCell (writeCell st a) b = writeCell st b := by
  refine St.ext rfl ?_ rfl rfl
  funext k
  by_cases hk : k = st.dp <;> simp [writeCell, hk]

theorem emod_add_fix (a b : Int) : (a % 256 + b) % 256 = (a + b) % 256 := by
  conv_rhs => rw [Int.add_emod]
  rw [Int.add_emod (a % 256) b, Int.emod_emod_of_dvd a (dvd_refl 256)]

theorem emod_sub_fix (a b : Int) : (a % 256 - b) % 256 = (a - b) % 256 := by
  conv_rhs => rw [Int.sub_emod]
  rw [Int.sub_emod (a % 256) b, Int.emod_emod_of_dvd a (dvd_refl 256)]

theorem getN_succ (n : Nat) (inp : List Int) (c : Int) :
    getN (n + 1) inp c = getN n (getN 1 inp c).1 (getN 1 inp c).2 := by
  cases inp <;> rfl

theorem doGet_dp (n : Nat) (st : St) : (doGet n st).dp = st.dp := rfl

theorem doGet_out (n : Nat) (st : St) : (doGet n st).out = st.out := rfl

theorem doGet_inp (n : Nat) (st : St) : (doGet n st).inp = (getN n st.inp (readCell st)).1 :=
  rfl

theorem readCell_doGet (n : Nat) (st : St) :
    readCell (doGet n st) = (getN n st.inp (readCell st)).2 := by
  rw [doGet, readCell_writeCell]

theorem writeCell_set_inp (st : St) (v : Int) (a : List Int) :
    writeCell { st with inp := a } v
      = { writeCell st v with inp := a } := rfl

theorem doGet_succ (n : Nat) (st : St) : doGet (n + 1) st = doGet n (doGet 1 st) := by
  conv_lhs => rw [doGet, getN_succ]
  conv_rhs => rw [doGet]
  rw [doGet_inp, readCell_doGet]
  have h1 : ({ doGet 1 st with
        inp := (getN n (getN 1 st.inp (readCell st)).1 (getN 1 st.inp (readCell st)).2).1 } : St)
      = writeCell { st with
          inp := (getN n (getN 1 st.inp (readCell st)).1 (getN 1 st.inp (readCell st)).2).1 }
        (getN 1 st.inp (readCell st)).2 := rfl
  rw [h1, writeCell_writeCell]

/-! Step equations of the two interpreters and block simulation. -/

theorem nstep_eq_add (ops : List Opcode) (ip : Nat) (st : St) (h : ops[ip]? = some OP_ADD) :
    nstep ops (ip, st) = some (ip + 1, writeCell st ((readCell st + 1) % 256)) := by
  simp [nstep, h]

theorem nstep_eq_sub (ops : List Opcode) (ip : Nat) (st : St) (h : ops[ip]? = some OP_SUB) :
    nstep ops (ip, st) = some (ip + 1, writeCell st ((readCell st - 1) % 256)) := by
  simp [nstep, h]

theorem nstep_eq_inc (ops : List Opcode) (ip : Nat) (st : St) (h : ops[ip]? = some OP_INC) :
    nstep ops (ip, st) = some (ip + 1, { st with dp := st.dp + 1 }) := by
  simp [nstep, h]

theorem nstep_eq_dec (ops : List Opcode) (ip : Nat) (st : St) (h : ops[ip]? = some OP_DEC) :
    nstep ops (ip, st) = some (ip + 1, { st with dp := st.dp - 1 }) := by
  simp [nstep, h]

theorem nstep_eq_put (ops : List Opcode) (ip : Nat) (st : St) (h : ops[ip]? = some OP_PUT) :
    nstep ops (ip, st) = some (ip + 1, { st with out := st.out ++ [readCell st] }) := by
  simp [nstep, h]

theorem nstep_eq_get (ops : List Opcode) (ip : Nat) (st : St) (h : ops[ip]? = some OP_GET) :
    nstep ops (ip, st) = some (ip + 1, doGet 1 st) := by
  simp [nstep, h]

theorem nstep_eq_jmp_taken (ops : List Opcode) (ip : Nat) (st : St)
    (h : ops[ip]? = some OP_JMP) (hc : readCell st = 0) :
    nstep ops (ip, st) = (matchF ops ip).map (fun q => (q + 1, st)) := by
  simp [nstep, h, hc]

theorem nstep_eq_jmp_skip (ops : List Opcode) (ip : Nat) (st : St)
    (h : ops[ip]? = some OP_JMP) (hc : ¬readCell st = 0) :
    nstep ops (ip, st) = some (ip + 1, st) := by
  simp [nstep, h, hc]

theorem nstep_eq_jne_taken (ops : List Opcode) (ip : Nat) (st : St)
    (h : ops[ip]? = some OP_JNE) (hc : ¬readCell st = 0) :
    nstep ops (ip, st) = (matchB ops ip).map (fun q => (q + 1, st)) := by
  simp [nstep, h, hc]

theorem nstep_eq_jne_skip (ops : List Opcode) (ip : Nat) (st : St)
    (h : ops[ip]? = some OP_JNE) (hc : readCell st = 0) :
    nstep ops (ip, st) = some (ip + 1, st) := by
  simp [nstep, h, hc]

theorem nstep_none_of_halt (ops : List Opcode) (x : Nat × St)
    (h : nHalt ops x = true) : nstep ops x = none := by
  rw [nHalt, Option.isNone_iff_eq_none] at h
  simp [nstep, h]

theorem ostep_none_of_halt (prog : List Instruction) (x : Nat × St)
    (h : oHalt prog x = true) : ostep prog x = none := by
  rw [oHalt, Option.isNone_iff_eq_none] at h
  simp [ostep, h]

theorem ostep_total (prog : List Instruction) (c : Nat) (st : St) (i : Instruction)
    (hc : prog[c]? = some i) : ∃ y, ostep prog (c, st) = some y := by
  have h : (ostep prog (c, st)).isSome = true := by
    cases ho : i.op <;> simp [ostep, hc, ho]
  exact Option.isSome_iff_exists.mp h

theorem block_add (ops : List Opcode) :
    ∀ (m ip : Nat) (st : St), (∀ j, j < m + 1 → ops[ip + j]? = some OP_ADD) →
      stepN (nstep ops) (m + 1) (ip, st)
        = some (ip + (m + 1), writeCell st ((readCell st + ((m + 1 : Nat) : Int)) % 256)) := by
  intro m
  induction m with
  | zero =>
    intro ip st hj
    have h0 : ops[ip]? = some OP_ADD := by simpa using hj 0 (by omega)
    rw [stepN, nstep_eq_add ops ip st h0, Option.some_bind, stepN]
    norm_num
  | succ m ih =>
    intro ip st hj
    have h0 : ops[ip]? = some OP_ADD := by simpa using hj 0 (by omega)
    rw [stepN, nstep_eq_add ops ip st h0, Option.some_bind]
    have hj2 : ∀ j, j < m + 1 → ops[ip + 1 + j]? = some OP_ADD := by
      intro j hjm
      have h := hj (j + 1) (by omega)
      rw [show ip + (j + 1) = ip + 1 + j from by omega] at h
      exact h
    rw [ih (ip + 1) _ hj2]
    congr 2
    · omega
    · rw [readCell_writeCell, writeCell_writeCell, emod_add_fix]
      congr 1
      push_cast
      ring_nf

theorem block_sub (ops : List Opcode) :
    ∀ (m ip : Nat) (st : St), (∀ j, j < m + 1 → ops[ip + j]? = some OP_SUB) →
      stepN (nstep ops) (m + 1) (ip, st)
        = some (ip + (m + 1), writeCell st ((readCell st - ((m + 1 : Nat) : Int)) % 256)) := by
  intro m
  induction m with
  | zero =>
    intro ip st hj
    have h0 : ops[ip]? = some OP_SUB := by simpa using hj 0 (by omega)
    rw [stepN, nstep_eq_sub ops ip st h0, Option.some_bind, stepN]
    norm_num
  | succ m ih =>
    intro ip st hj
    have h0 : ops[ip]? = some OP_SUB := by simpa using hj 0 (by omega)
    rw [stepN, nstep_eq_sub ops ip st h0, Option.some_bind]
    have hj2 : ∀ j, j < m + 1 → ops[ip + 1 + j]? = some OP_SUB := by
      intro j hjm
      have h := hj (j + 1) (by omega)
      rw [show ip + (j + 1) = ip + 1 + j from by omega] at h
      exact h
    rw [ih (ip + 1) _ hj2]
    congr 2
    · omega
    · rw [readCell_writeCell, writeCell_writeCell, emod_sub_fix]
      congr 1
      push_cast
      ring_nf

theorem block_inc (ops : List Opcode) :
    ∀ (m ip : Nat) (st : St), (∀ j, j < m + 1 → ops[ip + j]? = some OP_INC) →
      stepN (nstep ops) (m + 1) (ip, st)
        = some (ip + (m + 1), { st with dp := st.dp + ((m + 1 : Nat) : Int) }) := by
  intro m
  induction m with
  | zero =>
    intro ip st hj
    have h0 : ops[ip]? = some OP_INC := by simpa using hj 0 (by omega)
    rw [stepN, nstep_eq_inc ops ip st h0, Option.some_bind, stepN]
    norm_num
  | succ m ih =>
    intro ip st hj
    have h0 : ops[ip]? = some OP_INC := by simpa using hj 0 (by omega)
    rw [stepN, nstep_eq_inc ops ip st h0, Option.some_bind]
    have hj2 : ∀ j, j < m + 1 → ops[ip + 1 + j]? = some OP_INC := by
      intro j hjm
      have h := hj (j + 1) (by omega)
      rw [show ip + (j + 1) = ip + 1 + j from by omega] at h
      exact h
    rw [ih (ip + 1) _ hj2]
    congr 2
    · omega
    · refine St.ext ?_ rfl rfl rfl
      push_cast
      ring_nf

theorem block_dec (ops : List Opcode) :
    ∀ (m ip : Nat) (st : St), (∀ j, j < m + 1 → ops[ip + j]? = some OP_DEC) →
      stepN (nstep ops) (m + 1) (ip, st)
        = some (ip + (m + 1), { st with dp := st.dp - ((m + 1 : Nat) : Int) }) := by
  intro m
  induction m with
  | zero =>
    intro ip st hj
    have h0 : ops[ip]? = some OP_DEC := by simpa using hj 0 (by omega)
    rw [stepN, nstep_eq_dec ops ip st h0, Option.some_bind, stepN]
    norm_num
  | succ m ih =>
    intro ip st hj
    have h0 : ops[ip]? = some OP_DEC := by simpa using hj 0 (by omega)
    rw [stepN, nstep_eq_dec ops ip st h0, Option.some_bind]
    have hj2 : ∀ j, j < m + 1 → ops[ip + 1 + j]? = some OP_DEC := by
      intro j hjm
      have h := hj (j + 1) (by omega)
      rw [show ip + (j + 1) = ip + 1 + j from by omega] at h
      exact h
    rw [ih (ip + 1) _ hj2]
    congr 2
    · omega
    · refine St.ext ?_ rfl rfl rfl
      push_cast
      ring_nf

theorem block_put (ops : List Opcode) :
    ∀ (m ip : Nat) (st : St), (∀ j, j < m + 1 → ops[ip + j]? = some OP_PUT) →
      stepN (nstep ops) (m + 1) (ip, st)
        = some (ip + (m + 1), { st with out := st.out ++ List.replicate (m + 1) (readCell st) }) := by
  intro m
  induction m with
  | zero =>
    intro ip st hj
    have h0 : ops[ip]? = some OP_PUT := by simpa using hj 0 (by omega)
    rw [stepN, nstep_eq_put ops ip st h0, Option.some_bind, stepN]
    norm_num
  | succ m ih =>
    intro ip st hj
    have h0 : ops[ip]? = some OP_PUT := by simpa using hj 0 (by omega)
    rw [stepN, nstep_eq_put ops ip st h0, Option.some_bind]
    have hj2 : ∀ j, j < m + 1 → ops[ip + 1 + j]? = some OP_PUT := by
      intro j hjm
      have h := hj (j + 1) (by omega)
      rw [show ip + (j + 1) = ip + 1 + j from by omega] at h
      exact h
    rw [ih (ip + 1) _ hj2]
    congr 2
    · omega
    · refine St.ext rfl rfl rfl ?_
      show st.out ++ [readCell st] ++ List.replicate (m + 1) (readCell st)
        = st.out ++ List.replicate (m + 1 + 1) (readCell st)
      rw [List.append_assoc, List.replicate_succ]
      rfl

theorem block_get (ops : List Opcode) :
    ∀ (m ip : Nat) (st : St), (∀ j, j < m + 1 → ops[ip + j]? = some OP_GET) →
      stepN (nstep ops) (m + 1) (ip, st) = some (ip + (m + 1), doGet (m + 1) st) := by
  intro m
  induction m with
  | zero =>
    intro ip st hj
    have h0 : ops[ip]? = some OP_GET := by simpa using hj 0 (by omega)
    rw [stepN, nstep_eq_get ops ip st h0, Option.some_bind, stepN]
  | succ m ih =>
    intro ip st hj
    have h0 : ops[ip]? = some OP_GET := by simpa using hj 0 (by omega)
    rw [stepN, nstep_eq_get ops ip st h0, Option.some_bind]
    have hj2 : ∀ j, j < m + 1 → ops[ip + 1 + j]? = some OP_GET := by
      intro j hjm
      have h := hj (j + 1) (by omega)
      rw [show ip + (j + 1) = ip + 1 + j from by omega] at h
      exact h
    rw [ih (ip + 1) _ hj2]
    congr 2
    · omega
    · rw [← doGet_succ]

theorem ostep_eq_add (prog : List Instruction) (c : Nat) (st : St) (n : Nat)
    (h : prog[c]? = some ⟨OP_ADD, n⟩) :
    ostep prog (c, st) = some (c + 1, writeCell st ((readCell st + (n : Int)) % 256)) := by
  simp [ostep, h]

theorem ostep_eq_sub (prog : List Instruction) (c : Nat) (st : St) (n : Nat)
    (h : prog[c]? = some ⟨OP_SUB, n⟩) :
    ostep prog (c, st) = some (c + 1, writeCell st ((readCell st - (n : Int)) % 256)) := by
  simp [ostep, h]

theorem ostep_eq_inc (prog : List Instruction) (c : Nat) (st : St) (n : Nat)
    (h : prog[c]? = some ⟨OP_INC, n⟩) :
    ostep prog (c, st) = some (c + 1, { st with dp := st.dp + (n : Int) }) := by
  simp [ostep, h]

theorem ostep_eq_dec (prog : List Instruction) (c : Nat) (st : St) (n : Nat)
    (h : prog[c]? = some ⟨OP_DEC, n⟩) :
    ostep prog (c, st) = some (c + 1, { st with dp := st.dp - (n : Int) }) := by
  simp [ostep, h]

theorem ostep_eq_put (prog : List Instruction) (c : Nat) (st : St) (n : Nat)
    (h : prog[c]? = some ⟨OP_PUT, n⟩) :
    ostep prog (c, st)
      = some (c + 1, { st with out := st.out ++ List.replicate n (readCell st) }) := by
  simp [ostep, h]

theorem ostep_eq_get (prog : List Instruction) (c : Nat) (st : St) (n : Nat)
    (h : prog[c]? = some ⟨OP_GET, n⟩) :
    ostep prog (c, st) = some (c + 1, doGet n st) := by
  simp [ostep, h]

theorem ostep_eq_jmp_taken (prog : List Instruction) (c : Nat) (st : St) (t : Nat)
    (h : prog[c]? = some ⟨OP_JMP, t⟩) (hc : readCell st = 0) :
    ostep prog (c, st) = some (t + 1, st) := by
  simp [ostep, h, hc]

theorem ostep_eq_jmp_skip (prog : List Instruction) (c : Nat) (st : St) (t : Nat)
    (h : prog[c]? = some ⟨OP_JMP, t⟩) (hc : ¬readCell st = 0) :
    ostep prog (c, st) = some (c + 1, st) := by
  simp [ostep, h, hc]

theorem ostep_eq_jne_taken (prog : List Instruction) (c : Nat) (st : St) (t : Nat)
    (h : prog[c]? = some ⟨OP_JNE, t⟩) (hc : ¬readCell st = 0) :
    ostep prog (c, st) = some (t + 1, st) := by
  simp [ostep, h, hc]

theorem ostep_eq_jne_skip (prog : List Instruction) (c : Nat) (st : St) (t : Nat)
    (h : prog[c]? = some ⟨OP_JNE, t⟩) (hc : readCell st = 0) :
    ostep prog (c, st) = some (c + 1, st) := by
  simp [ostep, h, hc]

theorem ops_run_at (ops : List Opcode) (out : List Instruction) (hu : unfoldI out = ops)
    (c : Nat) (i : Instruction) (hc : out[c]? = some i) (hnj : i.op.isJump = false) :
    ∀ j, j < i.arg → ops[posOf out c + j]? = some i.op := by
  intro j hj
  have h1 : ops.drop (posOf out c)
      = List.replicate i.arg i.op ++ unfoldI (out.drop (c + 1)) := by
    rw [← hu, unfoldI_drop, drop_eq_cons_of_getElem out c i hc, unfoldI]
    simp [hnj]
  have h2 := List.getElem?_drop ops (posOf out c) j
  rw [h1, List.getElem?_append_left (by simpa using hj), List.getElem?_replicate,
    if_pos hj] at h2
  exact h2.symm

theorem ops_jump_at (ops : List Opcode) (out : List Instruction) (hu : unfoldI out = ops)
    (c : Nat) (i : Instruction) (hc : out[c]? = some i) (hj : i.op.isJump = true) :
    ops[posOf out c]? = some i.op := by
  have h1 : ops.drop (posOf out c) = i.op :: unfoldI (out.drop (c + 1)) := by
    rw [← hu, unfoldI_drop, drop_eq_cons_of_getElem out c i hc, unfoldI]
    simp [hj]
  have h2 := List.getElem?_drop ops (posOf out c) 0
  rw [h1] at h2
  simpa using h2.symm

theorem opt_step_sim (ops : List Opcode) (out : List Instruction)
    (hu : unfoldI out = ops)
    (hargs : ∀ i ∈ out, i.op.isJump = true ∨ 1 ≤ i.arg)
    (hp : PairsOK 0 out)
    (c : Nat) (st : St) (io : Opcode) (ia : Nat) (hc : out[c]? = some ⟨io, ia⟩)
    (y : Nat × St) (hstep : ostep out (c, st) = some y) :
    ∃ k, 1 ≤ k ∧ stepN (nstep ops) k (posOf out c, st) = some (posOf out y.1, y.2) := by
  have hargc : (⟨io, ia⟩ : Instruction).op.isJump = true ∨ 1 ≤ ia :=
    hargs _ (List.getElem?_mem hc)
  cases io with
  | OP_ADD =>
    have harg : 1 ≤ ia := by
      rcases hargc with h | h
      · simp [Opcode.isJump] at h
      · exact h
    obtain ⟨m, rfl⟩ : ∃ m, ia = m + 1 := ⟨ia - 1, by omega⟩
    rw [ostep_eq_add out c st (m + 1) hc] at hstep
    obtain rfl := Option.some_inj.mp hstep
    dsimp only
    refine ⟨m + 1, by omega, ?_⟩
    rw [block_add ops m (posOf out c) st (fun j hj => ops_run_at ops out hu c _ hc rfl j hj)]
    rw [posOf_succ_nonjump out c _ hc rfl]
  | OP_SUB =>
    have harg : 1 ≤ ia := by
      rcases hargc with h | h
      · simp [Opcode.isJump] at h
      · exact h
    obtain ⟨m, rfl⟩ : ∃ m, ia = m + 1 := ⟨ia - 1, by omega⟩
    rw [ostep_eq_sub out c st (m + 1) hc] at hstep
    obtain rfl := Option.some_inj.mp hstep
    dsimp only
    refine ⟨m + 1, by omega, ?_⟩
    rw [block_sub ops m (posOf out c) st (fun j hj => ops_run_at ops out hu c _ hc rfl j hj)]
    rw [posOf_succ_nonjump out c _ hc rfl]
  | OP_INC =>
    have harg : 1 ≤ ia := by
      rcases hargc with h | h
      · simp [Opcode.isJump] at h
      · exact h
    obtain ⟨m, rfl⟩ : ∃ m, ia = m + 1 := ⟨ia - 1, by omega⟩
    rw [ostep_eq_inc out c st (m + 1) hc] at hstep
    obtain rfl := Option.some_inj.mp hstep
    dsimp only
    refine ⟨m + 1, by omega, ?_⟩
    rw [block_inc ops m (posOf out c) st (fun j hj => ops_run_at ops out hu c _ hc rfl j hj)]
    rw [posOf_succ_nonjump out c _ hc rfl]
  | OP_DEC =>
    have harg : 1 ≤ ia := by
      rcases hargc with h | h
      · simp [Opcode.isJump] at h
      · exact h
    obtain ⟨m, rfl⟩ : ∃ m, ia = m + 1 := ⟨ia - 1, by omega⟩
    rw [ostep_eq_dec out c st (m + 1) hc] at hstep
    obtain rfl := Option.some_inj.mp hstep
    dsimp only
    refine ⟨m + 1, by omega, ?_⟩
    rw [block_dec ops m (posOf out c) st (fun j hj => ops_run_at ops out hu c _ hc rfl j hj)]
    rw [posOf_succ_nonjump out c _ hc rfl]
  | OP_PUT =>
    have harg : 1 ≤ ia := by
      rcases hargc with h | h
      · simp [Opcode.isJump] at h
      · exact h
    obtain ⟨m, rfl⟩ : ∃ m, ia = m + 1 := ⟨ia - 1, by omega⟩
    rw [ostep_eq_put out c st (m + 1) hc] at hstep
    obtain rfl := Option.some_inj.mp hstep
    dsimp only
    refine ⟨m + 1, by omega, ?_⟩
    rw [block_put ops m (posOf out c) st (fun j hj => ops_run_at ops out hu c _ hc rfl j hj)]
    rw [posOf_succ_nonjump out c _ hc rfl]
  | OP_GET =>
    have harg : 1 ≤ ia := by
      rcases hargc with h | h
      · simp [Opcode.isJump] at h
      · exact h
    obtain ⟨m, rfl⟩ : ∃ m, ia = m + 1 := ⟨ia - 1, by omega⟩
    rw [ostep_eq_get out c st (m + 1) hc] at hstep
    obtain rfl := Option.some_inj.mp hstep
    dsimp only
    refine ⟨m + 1, by omega, ?_⟩
    rw [block_get ops m (posOf out c) st (fun j hj => ops_run_at ops out hu c _ hc rfl j hj)]
    rw [posOf_succ_nonjump out c _ hc rfl]
  | OP_JMP =>
    by_cases hcell : readCell st = 0
    · rw [ostep_eq_jmp_taken out c st ia hc hcell] at hstep
      obtain rfl := Option.some_inj.mp hstep
      dsimp only
      obtain ⟨hop2, hmf⟩ := jump_matchF ops out hu hp c ia hc
      obtain ⟨i2, hi2, hi2op⟩ : ∃ i2, out[ia]? = some i2 ∧ i2.op = OP_JNE := by
        rcases h2 : out[ia]? with _ | i2
        · rw [h2] at hop2
          simp at hop2
        · rw [h2] at hop2
          simp at hop2
          exact ⟨i2, rfl, hop2⟩
      refine ⟨1, le_refl 1, ?_⟩
      rw [stepN, nstep_eq_jmp_taken ops (posOf out c) st
        (ops_jump_at ops out hu c _ hc rfl) hcell, hmf]
      simp only [Option.map_some', Option.some_bind, stepN]
      rw [posOf_succ_jump out ia i2 hi2 (by rw [hi2op]; rfl)]
    · rw [ostep_eq_jmp_skip out c st ia hc hcell] at hstep
      obtain rfl := Option.some_inj.mp hstep
      dsimp only
      refine ⟨1, le_refl 1, ?_⟩
      rw [stepN, nstep_eq_jmp_skip ops (posOf out c) st
        (ops_jump_at ops out hu c _ hc rfl) hcell]
      simp only [Option.some_bind, stepN]
      rw [posOf_succ_jump out c _ hc rfl]
  | OP_JNE =>
    by_cases hcell : readCell st = 0
    · rw [ostep_eq_jne_skip out c st ia hc hcell] at hstep
      obtain rfl := Option.some_inj.mp hstep
      dsimp only
      refine ⟨1, le_refl 1, ?_⟩
      rw [stepN, nstep_eq_jne_skip ops (posOf out c) st
        (ops_jump_at ops out hu c _ hc rfl) hcell]
      simp only [Option.some_bind, stepN]
      rw [posOf_succ_jump out c _ hc rfl]
    · rw [ostep_eq_jne_taken out c st ia hc hcell] at hstep
      obtain rfl := Option.some_inj.mp hstep
      dsimp only
      obtain ⟨hop2, hmb⟩ := jump_matchB ops out hu hp c ia hc
      obtain ⟨i2, hi2, hi2op⟩ : ∃ i2, out[ia]? = some i2 ∧ i2.op = OP_JMP := by
        rcases h2 : out[ia]? with _ | i2
        · rw [h2] at hop2
          simp at hop2
        · rw [h2] at hop2
          simp at hop2
          exact ⟨i2, rfl, hop2⟩
      refine ⟨1, le_refl 1, ?_⟩
      rw [stepN, nstep_eq_jne_taken ops (posOf out c) st
        (ops_jump_at ops out hu c _ hc rfl) hcell, hmb]
      simp only [Option.map_some', Option.some_bind, stepN]
      rw [posOf_succ_jump out ia i2 hi2 (by rw [hi2op]; rfl)]

theorem posOf_halt (ops : List Opcode) (out : List Instruction) (hu : unfoldI out = ops)
    (c : Nat) (hc : out[c]? = none) : ops[posOf out c]? = none := by
  rw [posOf_of_none out c hc, ← hu]
  exact List.getElem?_eq_none (le_refl _)

theorem optimize_input_args (ops : List Opcode) : ∀ i ∈ compile ops, i.arg = 1 := by
  intro i hi
  simp [compile] at hi
  obtain ⟨o, _, rfl⟩ := hi
  rfl

theorem opsOf_compile (ops : List Opcode) : opsOf (compile ops) = ops := by
  simp only [opsOf, compile, List.map_map]
  exact List.map_id ops

theorem optimize_unfold (ops : List Opcode) (out : List Instruction)
    (h : optimize (compile ops) = some out) : unfoldI out = ops := by
  have hg := optGo_general (compile ops).length (compile ops) [] [] out (le_refl _) h
    (optimize_input_args ops) (by intro p hp; simp at hp)
  rw [hg.1, opsOf_compile]
  rfl

theorem optimize_args (ops : List Opcode) (out : List Instruction)
    (h : optimize (compile ops) = some out) :
    ∀ i ∈ out, i.op.isJump = true ∨ 1 ≤ i.arg := by
  have hg := optGo_general (compile ops).length (compile ops) [] [] out (le_refl _) h
    (optimize_input_args ops) (by intro p hp; simp at hp)
  exact hg.2 (by intro i hi; simp at hi)

theorem opt_to_naive (ops : List Opcode) (out : List Instruction)
    (hu : unfoldI out = ops)
    (hargs : ∀ i ∈ out, i.op.isJump = true ∨ 1 ≤ i.arg)
    (hp : PairsOK 0 out) :
    ∀ (F c : Nat) (st : St) (y : Nat × St),
      optRun out F (c, st) = some y →
      ∃ f z, naiveRun ops f (posOf out c, st) = some z ∧ z.2 = y.2 := by
  intro F
  induction F with
  | zero =>
    intro c st y hy
    simp [optRun, runFuel] at hy
  | succ F ih =>
    intro c st y hy
    rw [optRun, runFuel] at hy
    by_cases hh : oHalt out (c, st) = true
    · rw [if_pos hh] at hy
      obtain rfl := Option.some_inj.mp hy
      refine ⟨1, (posOf out c, st), ?_, rfl⟩
      have hhn : nHalt ops (posOf out c, st) = true := by
        rw [oHalt] at hh
        rw [nHalt]
        simp only [Option.isNone_iff_eq_none] at hh ⊢
        exact posOf_halt ops out hu c hh
      exact runFuel_halt_succ _ _ 0 _ hhn
    · rw [if_neg hh] at hy
      cases hst : ostep out (c, st) with
      | none =>
        rw [hst] at hy
        simp at hy
      | some x1 =>
        rw [hst, Option.some_bind] at hy
        obtain ⟨f, z, hz, hzy⟩ := ih x1.1 x1.2 y hy
        obtain ⟨i, hi⟩ : ∃ i, out[c]? = some i := by
          rw [oHalt] at hh
          rcases h2 : out[c]? with _ | i
          · rw [h2] at hh
            simp at hh
          · exact ⟨i, rfl⟩
        obtain ⟨k, hk1, hkstep⟩ := opt_step_sim ops out hu hargs hp c st i.op i.arg hi x1 hst
        exact ⟨k + f, z,
          stepN_runFuel _ _ (nstep_none_of_halt ops) k _ _ hkstep f z hz, hzy⟩

theorem naive_to_opt (ops : List Opcode) (out : List Instruction)
    (hu : unfoldI out = ops)
    (hargs : ∀ i ∈ out, i.op.isJump = true ∨ 1 ≤ i.arg)
    (hp : PairsOK 0 out) :
    ∀ (f c : Nat) (st : St) (z : Nat × St),
      naiveRun ops f (posOf out c, st) = some z →
      ∃ F w, optRun out F (c, st) = some w ∧ w.2 = z.2 := by
  intro f
  induction f using Nat.strong_induction_on with
  | _ f ih =>
    intro c st z hz
    rcases h2 : out[c]? with _ | i
    · have hhn : nHalt ops (posOf out c, st) = true := by
        rw [nHalt, Option.isNone_iff_eq_none]
        exact posOf_halt ops out hu c h2
      have hzz := runFuel_halt _ _ f _ z hz hhn
      refine ⟨1, (c, st), ?_, by rw [hzz]⟩
      exact runFuel_halt_succ _ _ 0 _ (by rw [oHalt, h2]; rfl)
    · obtain ⟨y, hy⟩ := ostep_total out c st i h2
      obtain ⟨k, hk1, hkstep⟩ := opt_step_sim ops out hu hargs hp c st i.op i.arg h2 y hy
      obtain ⟨hkf, hrest⟩ := runFuel_stepN _ _ (nstep_none_of_halt ops) k _ _ hkstep f z hz
      obtain ⟨F, w, hw, hwz⟩ := ih (f - k) (by omega) y.1 y.2 z hrest
      have hne : ¬oHalt out (c, st) = true := by
        rw [oHalt, h2]
        simp
      refine ⟨F + 1, w, ?_, hwz⟩
      rw [optRun, runFuel, if_neg hne, hy, Option.some_bind]
      exact hw

theorem optimizer_equiv (ops : List Opcode) (hb : BalancedOps ops)
    (out : List Instruction) (hopt : optimize (compile ops) = some out)
    (inp : List Int) (O : List Int) :
    (∃ f z, naiveRun ops f (0, initSt inp) = some z ∧ z.2.out = O)
      ↔ (∃ F w, optRun out F (0, initSt inp) = some w ∧ w.2.out = O) := by
  obtain ⟨out2, hopt2, hu, hp⟩ := optimize_bal ops (bal_of_balanced hb)
  obtain rfl : out2 = out := by
    rw [hopt] at hopt2
    exact (Option.some_inj.mp hopt2).symm
  have hargs := optimize_args ops out2 hopt
  constructor
  · rintro ⟨f, z, hz, hO⟩
    obtain ⟨F, w, hw, hwz⟩ := naive_to_opt ops out2 hu hargs hp f 0 (initSt inp) z hz
    exact ⟨F, w, hw, by rw [hwz]; exact hO⟩
  · rintro ⟨F, w, hw, hO⟩
    obtain ⟨f, z, hz, hzw⟩ := opt_to_naive ops out2 hu hargs hp F 0 (initSt inp) w hw
    exact ⟨f, z, hz, by rw [hzw]; exact hO⟩

/-! Adjacency of folded runs in the optimizer output. -/

theorem dropWhile_head_false {α : Type} (p : α → Bool) :
    ∀ (l : List α) (y : α) (ys : List α), l.dropWhile p = y :: ys → p y = false := by
  intro l
  induction l with
  | nil =>
    intro y ys h
    simp at h
  | cons x xs ih =>
    intro y ys h
    rw [List.dropWhile_cons] at h
    by_cases hx : p x
    · rw [if_pos hx] at h
      exact ih y ys h
    · rw [if_neg hx] at h
      obtain ⟨h1, _⟩ := List.cons.injEq .. |>.mp h
      rw [← h1]
      exact Bool.of_not_eq_true hx

theorem setArg_getElem?_op (l : List Instruction) (p n c : Nat) :
    ((setArg l p n)[c]?).map (fun i => i.op) = (l[c]?).map (fun i => i.op) := by
  by_cases hc : c = p
  · subst hc
    rw [setArg_getElem?_self]
    cases l[c]? <;> rfl
  · rw [setArg_getElem?_ne _ _ _ _ hc]

theorem noAdj_setArg (l : List Instruction) (p n : Nat) (h : NoAdj l) :
    NoAdj (setArg l p n) := by
  intro c o hc hc1
  rw [setArg_getElem?_op] at hc hc1
  exact h c o hc hc1

theorem setArg_getLast?_op (l : List Instruction) (p n : Nat) :
    ((setArg l p n).getLast?).map (fun i => i.op) = (l.getLast?).map (fun i => i.op) := by
  rw [List.getLast?_eq_getElem?, List.getLast?_eq_getElem?, setArg_length]
  exact setArg_getElem?_op l p n (l.length - 1)

theorem noAdj_append_one (l : List Instruction) (x : Instruction)
    (h : NoAdj l)
    (hx : ∀ z, l.getLast? = some z → z.op = x.op → x.op.isJump = true) :
    NoAdj (l ++ [x]) := by
  intro c o hc hc1
  by_cases hcl : c + 1 < l.length
  · rw [List.getElem?_append_left (by omega)] at hc
    rw [List.getElem?_append_left hcl] at hc1
    exact h c o hc hc1
  · by_cases hce : c + 1 = l.length
    · rw [List.getElem?_append_left (by omega)] at hc
      rw [List.getElem?_append_right (by omega), show c + 1 - l.length = 0 from by omega,
        List.getElem?_cons_zero] at hc1
      simp only [Option.map_some'] at hc1
      obtain ⟨z, hz, hzo⟩ : ∃ z, l[c]? = some z ∧ z.op = o := by
        rcases h2 : l[c]? with _ | z
        · rw [h2] at hc
          simp at hc
        · rw [h2] at hc
          simp at hc
          exact ⟨z, rfl, hc⟩
      have hlast : l.getLast? = some z := by
        rw [List.getLast?_eq_getElem?, show l.length - 1 = c from by omega]
        exact hz
      have hxo : x.op = o := Option.some_inj.mp hc1
      have hj := hx z hlast (by rw [hzo, hxo])
      rw [← hxo]
      exact hj
    · rw [List.getElem?_eq_none (by simp; omega)] at hc1
      simp at hc1

theorem optGo_noAdj :
    ∀ (n : Nat) (bc : List Instruction) (stack : List Nat) (acc out : List Instruction),
      bc.length ≤ n →
      optimizeGo bc stack acc = some out →
      NoAdj acc →
      (∀ x z, bc.head? = some x → x.op.isJump = false → acc.getLast? = some z →
        z.op ≠ x.op) →
      NoAdj out := by
  intro n
  induction n with
  | zero =>
    intro bc stack acc out hl hopt hna _
    obtain rfl := List.length_eq_zero.mp (Nat.le_zero.mp hl)
    rw [optimizeGo_nil] at hopt
    obtain rfl := Option.some_inj.mp hopt
    exact hna
  | succ n ih =>
    rintro (_ | ⟨⟨io, ia⟩, rest⟩) stack acc out hl hopt hna hsep
    · rw [optimizeGo_nil] at hopt
      obtain rfl := Option.some_inj.mp hopt
      exact hna
    have hlrest : rest.length ≤ n := by
      simp at hl
      omega
    by_cases hjm : io = OP_JMP
    · subst hjm
      rw [optimizeGo_jmp] at hopt
      refine ih rest _ _ out hlrest hopt ?_ ?_
      · refine noAdj_append_one acc _ hna ?_
        intro z _ _
        rfl
      · intro x z hx hxnj hz
        rw [List.getLast?_concat] at hz
        obtain rfl := Option.some_inj.mp hz.symm
        intro he
        rw [← he] at hxnj
        simp [Opcode.isJump] at hxnj
    by_cases hjn : io = OP_JNE
    · subst hjn
      cases stack with
      | nil =>
        rw [optimizeGo_jne_nil] at hopt
        simp at hopt
      | cons p stack =>
        rw [optimizeGo_jne] at hopt
        refine ih rest _ _ out hlrest hopt ?_ ?_
        · refine noAdj_append_one _ _ (noAdj_setArg acc p acc.length hna) ?_
          intro z _ _
          rfl
        · intro x z hx hxnj hz
          rw [List.getLast?_concat] at hz
          obtain rfl := Option.some_inj.mp hz.symm
          intro he
          rw [← he] at hxnj
          simp [Opcode.isJump] at hxnj
    · rw [optimizeGo_fold io hjm hjn ia rest stack acc] at hopt
      have hld : (rest.drop (rest.takeWhile (fun b => b.op = io)).length).length ≤ n := by
        rw [List.length_drop]
        omega
      refine ih _ _ _ out hld hopt ?_ ?_
      · refine noAdj_append_one acc _ hna ?_
        intro z hz hzo
        exact absurd hzo (hsep ⟨io, ia⟩ z rfl (isJump_false hjm hjn) hz)
      · intro x z hx hxnj hz
        rw [List.getLast?_concat] at hz
        obtain rfl := Option.some_inj.mp hz.symm
        rw [drop_takeWhile_len] at hx
        obtain ⟨y, ys, hyys⟩ : ∃ y ys,
            rest.dropWhile (fun b => b.op = io) = y :: ys := by
          rcases h2 : rest.dropWhile (fun b => b.op = io) with _ | ⟨y, ys⟩
          · rw [h2] at hx
            simp at hx
          · exact ⟨y, ys, h2⟩
        rw [hyys] at hx
        obtain rfl := Option.some_inj.mp hx.symm
        have hyop := dropWhile_head_false _ rest x ys hyys
        simp at hyop
        intro he
        exact hyop (by rw [← he])

theorem optimize_noAdj (ops : List Opcode) (out : List Instruction)
    (h : optimize (compile ops) = some out) : NoAdj out := by
  refine optGo_noAdj (compile ops).length (compile ops) [] [] out (le_refl _) h ?_ ?_
  · intro c o hc _
    simp at hc
  · intro x z _ _ hz
    simp at hz

/-! Characterization of the lexer. -/

theorem lexAux_nil (count : Nat) : lexAux [] count = some [] := rfl

theorem lexAux_cons_over (c : Char) (rest : List Char) (count : Nat)
    (h : TAPELEN - 2 ≤ count) : lexAux (c :: rest) count = none := by
  rw [lexAux, if_pos h]

theorem lexAux_cons_cmd (c : Char) (t : Tok) (hct : charTok c = some t)
    (rest : List Char) (count : Nat) (h : ¬(TAPELEN - 2 ≤ count)) :
    lexAux (c :: rest) count = (lexAux rest (count + 1)).map (fun ts => t :: ts) := by
  rw [lexAux, if_neg h, hct]

theorem lexAux_cons_skip (c : Char) (hct : charTok c = none)
    (rest : List Char) (count : Nat) (h : ¬(TAPELEN - 2 ≤ count)) :
    lexAux (c :: rest) count = lexAux rest count := by
  rw [lexAux, if_neg h, hct]

theorem lexAux_none_iff :
    ∀ (input : List Char) (count : Nat),
      lexAux input count = none
        ↔ ∃ k, k < input.length
            ∧ TAPELEN - 2 ≤ count + (input.take k).countP (fun c => (charTok c).isSome) := by
  intro input
  induction input with
  | nil =>
    intro count
    simp [lexAux_nil]
  | cons c rest ih =>
    intro count
    by_cases hov : TAPELEN - 2 ≤ count
    · rw [lexAux_cons_over c rest count hov]
      constructor
      · intro _
        exact ⟨0, by simp, by simpa using hov⟩
      · intro _
        rfl
    · cases hct : charTok c with
      | some t =>
        rw [lexAux_cons_cmd c t hct rest count hov, Option.map_eq_none', ih (count + 1)]
        constructor
        · rintro ⟨k, hk, hcnt⟩
          refine ⟨k + 1, by simpa using hk, ?_⟩
          rw [List.take_succ_cons, List.countP_cons_of_pos _ _ (by simp [hct])]
          omega
        · rintro ⟨k, hk, hcnt⟩
          cases k with
          | zero =>
            simp at hcnt
            omega
          | succ k0 =>
            refine ⟨k0, by simpa using hk, ?_⟩
            rw [List.take_succ_cons, List.countP_cons_of_pos _ _ (by simp [hct])] at hcnt
            omega
      | none =>
        rw [lexAux_cons_skip c hct rest count hov, ih count]
        constructor
        · rintro ⟨k, hk, hcnt⟩
          refine ⟨k + 1, by simpa using hk, ?_⟩
          rw [List.take_succ_cons, List.countP_cons_of_neg _ _ (by simp [hct])]
          omega
        · rintro ⟨k, hk, hcnt⟩
          cases k with
          | zero =>
            simp at hcnt
            omega
          | succ k0 =>
            refine ⟨k0, by simpa using hk, ?_⟩
            rw [List.take_succ_cons, List.countP_cons_of_neg _ _ (by simp [hct])] at hcnt
            omega

theorem lexAux_some :
    ∀ (input : List Char) (count : Nat) (ts : List Tok),
      lexAux input count = some ts → ts = input.filterMap charTok := by
  intro input
  induction input with
  | nil =>
    intro count ts h
    rw [lexAux_nil] at h
    rw [← Option.some_inj.mp h]
    rfl
  | cons c rest ih =>
    intro count ts h
    by_cases hov : TAPELEN - 2 ≤ count
    · rw [lexAux_cons_over c rest count hov] at h
      cases h
    · cases hct : charTok c with
      | some t =>
        rw [lexAux_cons_cmd c t hct rest count hov] at h
        cases hrec : lexAux rest (count + 1) with
        | none =>
          rw [hrec] at h
          cases h
        | some ts0 =>
          rw [hrec, Option.map_some'] at h
          rw [← Option.some_inj.mp h, List.filterMap_cons, hct]
          rw [ih (count + 1) ts0 hrec]
      | none =>
        rw [lexAux_cons_skip c hct rest count hov] at h
        rw [List.filterMap_cons, hct]
        exact ih count ts h

/-! Jump pairs of the output also match textually within the output itself. -/

theorem bdepth_replicate (n : Nat) (o : Opcode) :
    bdepth (List.replicate n o) = n * jdelta o := by
  induction n with
  | zero => simp [bdepth]
  | succ m ih =>
    rw [List.replicate_succ, bdepth_cons, ih]
    push_cast
    ring

theorem bdepth_opsOf_unfold (l : List Instruction) :
    bdepth (opsOf l) = bdepth (unfoldI l) := by
  induction l with
  | nil => rfl
  | cons i rest ih =>
    rw [unfoldI, bdepth_append, show opsOf (i :: rest) = i.op :: opsOf rest from rfl,
      bdepth_cons, ih]
    by_cases hj : i.op.isJump = true
    · rw [if_pos hj, bdepth_cons]
      simp [bdepth]
    · rw [if_neg hj, bdepth_replicate]
      have h0 : jdelta i.op = 0 := by
        cases hi : i.op <;> simp_all [Opcode.isJump, jdelta]
      rw [h0]
      ring

theorem balancedOps_opsOf (l : List Instruction) (h : BalancedOps (unfoldI l)) :
    BalancedOps (opsOf l) := by
  constructor
  · intro p _
    have h1 : (opsOf l).take p = opsOf (l.take p) := by
      rw [opsOf, opsOf, List.map_take]
    rw [h1, bdepth_opsOf_unfold, ← unfoldI_take]
    exact bal_take_nonneg h (posOf l p)
  · rw [bdepth_opsOf_unfold]
    exact h.2

theorem pairs_matchF_out (out : List Instruction) (hp : PairsOK 0 out)
    (c t : Nat) (hc : out[c]? = some ⟨OP_JMP, t⟩) :
    out[t]? = some ⟨OP_JNE, c⟩ ∧ matchF (opsOf out) c = some t := by
  obtain ⟨d, ht, hcd, hd, hseg⟩ := hp.1 c t hc
  have htd : t = d := by omega
  subst htd
  have hdc : out[t]? = some ⟨OP_JNE, c⟩ := by
    rw [hd]
    simp
  refine ⟨hdc, ?_⟩
  have h1 : (opsOf out).drop (c + 1)
      = opsOf (seg out (c + 1) t) ++ (OP_JNE :: opsOf (out.drop (t + 1))) := by
    calc (opsOf out).drop (c + 1) = opsOf (out.drop (c + 1)) := by
          rw [opsOf, opsOf, List.map_drop]
      _ = opsOf (seg out (c + 1) t ++ out.drop t) := by
          rw [seg_append_drop out (c + 1) t (by omega)]
      _ = _ := by
          rw [drop_eq_cons_of_getElem out t _ hdc]
          simp [opsOf]
  have hbal : Bal (opsOf (seg out (c + 1) t)) :=
    bal_of_balanced (balancedOps_opsOf _ (balanced_of_bal hseg))
  rw [matchF, h1, go_bal_start hbal]
  simp only [Option.map_some']
  congr 1
  have htlt : t < out.length := (List.getElem?_eq_some.mp hdc).1
  have hlen : (seg out (c + 1) t).length = t - (c + 1) := by
    rw [seg, List.length_take, List.length_drop]
    omega
  rw [opsOf, List.length_map, hlen]
  omega

theorem pairs_matchB_out (out : List Instruction) (hp : PairsOK 0 out)
    (c t : Nat) (hc : out[c]? = some ⟨OP_JNE, t⟩) :
    out[t]? = some ⟨OP_JMP, c⟩ ∧ matchB (opsOf out) c = some t := by
  obtain ⟨d, ht, hdc, hd, hseg⟩ := hp.2 c t hc
  have htd : t = d := by omega
  subst htd
  have hdc2 : out[t]? = some ⟨OP_JMP, c⟩ := by
    rw [hd]
    simp
  refine ⟨hdc2, ?_⟩
  have h1 : out.take c = (out.take t ++ [Instruction.mk OP_JMP c]) ++ seg out (t + 1) c := by
    rw [take_add_seg out (t + 1) c (by omega), List.take_succ, hdc2]
    rfl
  have h2 : ((opsOf out).take c).reverse.map swapOp
      = (opsOf (seg out (t + 1) c)).reverse.map swapOp
        ++ (OP_JNE :: ((opsOf (out.take t)).reverse.map swapOp)) := by
    have h3 : (opsOf out).take c = opsOf (out.take c) := by
      rw [opsOf, opsOf, List.map_take]
    rw [h3, h1]
    simp [opsOf, swapOp]
  have hbal : Bal ((opsOf (seg out (t + 1) c)).reverse.map swapOp) :=
    swapRev_bal (bal_of_balanced (balancedOps_opsOf _ (balanced_of_bal hseg)))
  rw [matchB, h2, go_bal_start hbal]
  simp only [Option.map_some', List.length_map, List.length_reverse]
  congr 1
  have hclt : c < out.length := (List.getElem?_eq_some.mp hc).1
  have hlen : (seg out (t + 1) c).length = c - (t + 1) := by
    rw [seg, List.length_take, List.length_drop]
    omega
  rw [opsOf, List.length_map, hlen]
  omega

/-! Characterization of the folded input instruction. -/

theorem getN_spec : ∀ (n : Nat) (bs : List Int) (c : Int), 0 < n → n ≤ bs.length →
    getN n bs c = (bs.drop n, bs.getD (n - 1) 0 % 256) := by
  intro n
  induction n with
  | zero =>
    intro bs c h1 _
    exact absurd h1 (lt_irrefl 0)
  | succ m ih =>
    intro bs c _ h2
    cases bs with
    | nil => simp at h2
    | cons b r =>
      cases m with
      | zero => rfl
      | succ m2 =>
        rw [show getN (m2 + 1 + 1) (b :: r) c = getN (m2 + 1) r (b % 256) from rfl]
        rw [ih r (b % 256) (by omega) (by simpa using h2)]
        rw [List.drop_succ_cons, show m2 + 1 + 1 - 1 = m2 + 1 from rfl, List.getD_cons_succ,
          show m2 + 1 - 1 = m2 from rfl]

theorem getN_empty : ∀ (n : Nat), 0 < n → ∀ c : Int, getN n [] c = ([], 255) := by
  intro n
  induction n with
  | zero =>
    intro h
    exact absurd h (lt_irrefl 0)
  | succ m ih =>
    intro _ c
    cases m with
    | zero => rfl
    | succ m2 =>
      rw [show getN (m2 + 1 + 1) ([] : List Int) c = getN (m2 + 1) [] 255 from rfl]
      exact ih (by omega) 255

/-! Claim theorems. -/

/-- C1: the claim states that parsing succeeds iff the bracket sequence is
balanced (running count never negative, zero at the end).  The code only
checks the final counter: the token sequence `] [` is accepted by `parse`
although its first prefix has a negative running count, so the claim fails
on the code (and the accepted program then makes the optimizer dereference
a NULL stack).  This theorem evaluates the parser at the failing input. -/
theorem parse_accepts_unbalanced_tokens :
    parse [Tok.rbracket, Tok.lbracket] = some [OP_JNE, OP_JMP]
      ∧ ¬BalancedOps [OP_JNE, OP_JMP] :=
  ⟨rfl, by decide⟩

/-- C2: the claim states that on parser-accepted input the optimizer can
never pop an empty loop stack.  The parser accepts the token sequence
`] [`, on which the optimizer immediately reaches the `OP_JNE` branch with
an empty stack (a NULL dereference in the C code, `none` in the model), so
the claim fails on the code. -/
theorem optimizer_underflow_on_accepted_input :
    parse [Tok.rbracket, Tok.lbracket] = some [OP_JNE, OP_JMP]
      ∧ optimize (compile [OP_JNE, OP_JMP]) = none :=
  ⟨rfl, by simp [optimize, optimizeGo, compile]⟩

/-- C3: for every balanced source program and every runtime input, the
optimized program produces exactly the output sequences that the naive
interpreter (unit instructions, textual bracket matching) produces — the
optimizer is semantics-preserving. -/
theorem optimizer_preserves_semantics (ops : List Opcode) (hb : BalancedOps ops)
    (out : List Instruction) (hopt : optimize (compile ops) = some out)
    (inp O : List Int) :
    (∃ f z, naiveRun ops f (0, initSt inp) = some z ∧ z.2.out = O)
      ↔ (∃ F w, optRun out F (0, initSt inp) = some w ∧ w.2.out = O) :=
  optimizer_equiv ops hb out hopt inp O

/-- Witness for C3 at the one-instruction program `.` with empty input. -/
theorem optimizer_preserves_semantics_witness :
    BalancedOps [OP_PUT]
      ∧ optimize (compile [OP_PUT]) = some [⟨OP_PUT, 1⟩]
      ∧ ((∃ f z, naiveRun [OP_PUT] f (0, initSt []) = some z ∧ z.2.out = [0])
          ↔ (∃ F w, optRun [⟨OP_PUT, 1⟩] F (0, initSt []) = some w ∧ w.2.out = [0])) :=
  ⟨by decide, by simp [optimize, optimizeGo, compile],
    optimizer_preserves_semantics [OP_PUT] (by decide) [⟨OP_PUT, 1⟩]
      (by simp [optimize, optimizeGo, compile]) [] [0]⟩

/-- C4: in the optimizer output no two adjacent instructions share the same
non-jump opcode, and unfolding every folded instruction back into its
argument many unit instructions recovers exactly the lowered input (so each
folded argument counts exactly the unit instructions it replaced). -/
theorem optimizer_folding_invariant (ops : List Opcode) (out : List Instruction)
    (h : optimize (compile ops) = some out) :
    NoAdj out ∧ unfoldI out = ops :=
  ⟨optimize_noAdj ops out h, optimize_unfold ops out h⟩

/-- Witness for C4 at the program `++[-]`. -/
theorem optimizer_folding_invariant_witness :
    optimize (compile [OP_ADD, OP_ADD, OP_JMP, OP_SUB, OP_JNE])
        = some [⟨OP_ADD, 2⟩, ⟨OP_JMP, 3⟩, ⟨OP_SUB, 1⟩, ⟨OP_JNE, 1⟩]
      ∧ (NoAdj [⟨OP_ADD, 2⟩, ⟨OP_JMP, 3⟩, ⟨OP_SUB, 1⟩, ⟨OP_JNE, 1⟩]
          ∧ unfoldI [⟨OP_ADD, 2⟩, ⟨OP_JMP, 3⟩, ⟨OP_SUB, 1⟩, ⟨OP_JNE, 1⟩]
              = [OP_ADD, OP_ADD, OP_JMP, OP_SUB, OP_JNE]) :=
  ⟨by simp [optimize, optimizeGo, compile, setArg, List.takeWhile],
    optimizer_folding_invariant _ _
      (by simp [optimize, optimizeGo, compile, setArg, List.takeWhile])⟩

/-- C5: for balanced input, every `OP_JMP` in the optimizer output carries
the position of its textually matching `OP_JNE` as argument and that
`OP_JNE` carries the `OP_JMP` position back (each other's own positions,
not the position just past the loop). -/
theorem optimizer_jump_pairs (ops : List Opcode) (hb : BalancedOps ops)
    (out : List Instruction) (hopt : optimize (compile ops) = some out) :
    (∀ P t, out[P]? = some ⟨OP_JMP, t⟩ →
        out[t]? = some ⟨OP_JNE, P⟩ ∧ matchF (opsOf out) P = some t)
      ∧ (∀ Q t, out[Q]? = some ⟨OP_JNE, t⟩ →
        out[t]? = some ⟨OP_JMP, Q⟩ ∧ matchB (opsOf out) Q = some t) := by
  obtain ⟨out2, hopt2, hu, hp⟩ := optimize_bal ops (bal_of_balanced hb)
  obtain rfl : out2 = out := by
    rw [hopt] at hopt2
    exact (Option.some_inj.mp hopt2).symm
  exact ⟨fun P t h => pairs_matchF_out out2 hp P t h,
    fun Q t h => pairs_matchB_out out2 hp Q t h⟩

/-- Witness for C5 at the program `[]`. -/
theorem optimizer_jump_pairs_witness :
    BalancedOps [OP_JMP, OP_JNE]
      ∧ optimize (compile [OP_JMP, OP_JNE]) = some [⟨OP_JMP, 1⟩, ⟨OP_JNE, 0⟩]
      ∧ ((∀ P t, ([⟨OP_JMP, 1⟩, ⟨OP_JNE, 0⟩] : List Instruction)[P]? = some ⟨OP_JMP, t⟩ →
            ([⟨OP_JMP, 1⟩, ⟨OP_JNE, 0⟩] : List Instruction)[t]? = some ⟨OP_JNE, P⟩
              ∧ matchF (opsOf [⟨OP_JMP, 1⟩, ⟨OP_JNE, 0⟩]) P = some t)
          ∧ (∀ Q t, ([⟨OP_JMP, 1⟩, ⟨OP_JNE, 0⟩] : List Instruction)[Q]? = some ⟨OP_JNE, t⟩ →
            ([⟨OP_JMP, 1⟩, ⟨OP_JNE, 0⟩] : List Instruction)[t]? = some ⟨OP_JMP, Q⟩
              ∧ matchB (opsOf [⟨OP_JMP, 1⟩, ⟨OP_JNE, 0⟩]) Q = some t)) :=
  ⟨by decide, by simp [optimize, optimizeGo, compile, setArg],
    optimizer_jump_pairs [OP_JMP, OP_JNE] (by decide) [⟨OP_JMP, 1⟩, ⟨OP_JNE, 0⟩]
      (by simp [optimize, optimizeGo, compile, setArg])⟩

/-- C6: compiling and running `++++++++[>++++++++<-]>.` with no runtime
input produces exactly the single output byte 64. -/
theorem loop_multiplication_end_to_end :
    bfcOut 300 "++++++++[>++++++++<-]>.".toList [] = some [64] := by
  have hOpt : optimize (compile [OP_ADD, OP_ADD, OP_ADD, OP_ADD, OP_ADD, OP_ADD, OP_ADD,
      OP_ADD, OP_JMP, OP_INC, OP_ADD, OP_ADD, OP_ADD, OP_ADD, OP_ADD, OP_ADD, OP_ADD,
      OP_ADD, OP_DEC, OP_SUB, OP_JNE, OP_INC, OP_PUT]) =
      some [⟨OP_ADD, 8⟩, ⟨OP_JMP, 6⟩, ⟨OP_INC, 1⟩, ⟨OP_ADD, 8⟩, ⟨OP_DEC, 1⟩, ⟨OP_SUB, 1⟩,
        ⟨OP_JNE, 1⟩, ⟨OP_INC, 1⟩, ⟨OP_PUT, 1⟩] := by
    simp [optimize, optimizeGo, compile, setArg, List.takeWhile]
  show (optimize (compile [OP_ADD, OP_ADD, OP_ADD, OP_ADD, OP_ADD, OP_ADD, OP_ADD,
      OP_ADD, OP_JMP, OP_INC, OP_ADD, OP_ADD, OP_ADD, OP_ADD, OP_ADD, OP_ADD, OP_ADD,
      OP_ADD, OP_DEC, OP_SUB, OP_JNE, OP_INC, OP_PUT])).bind
      (fun prog => (optRun prog 300 (0, initSt [])).map fun y => y.2.out) = some [64]
  rw [hOpt]
  rfl

/-- C7 counterexample: the claim states that discarded non-command
characters never cause `CapacityExceeded`.  But after exactly
`TAPELEN - 2` stored command characters, the very next character — here a
space, which is not a command — makes `lex` fail, although the stored
count never exceeds `TAPELEN - 2`. -/
theorem lex_fails_on_trailing_noncommand :
    lex (List.replicate (TAPELEN - 2) '+' ++ [' ']) = none
      ∧ (List.replicate (TAPELEN - 2) '+' ++ [' ']).countP
          (fun c => (charTok c).isSome) = TAPELEN - 2 := by
  have htake : List.take (TAPELEN - 2) (List.replicate (TAPELEN - 2) '+' ++ [' '])
      = List.replicate (TAPELEN - 2) '+' := by
    have h := List.take_left (List.replicate (TAPELEN - 2) '+') ([' '] : List Char)
    rwa [List.length_replicate] at h
  have hplus : ((fun c => (charTok c).isSome) '+' : Bool) = true := rfl
  have hspace : ¬(((fun c => (charTok c).isSome) ' ' : Bool) = true) := by
    intro h
    cases h
  constructor
  · rw [lex, lexAux_none_iff]
    refine ⟨TAPELEN - 2, ?_, ?_⟩
    · rw [List.length_append, List.length_replicate, List.length_singleton]
      omega
    · rw [htake, List.countP_replicate, if_pos hplus]
      omega
  · rw [List.countP_append, List.countP_replicate, if_pos hplus,
      @List.countP_cons_of_neg Char (fun c => (charTok c).isSome) ' ' [] hspace,
      List.countP_nil]
    omega

/-- C7 (amended): `lex` keeps the command characters in order and discards
everything else, but it fails with `CapacityExceeded` exactly when some
character — command or not — is fetched while `TAPELEN - 2` command
characters have already been stored; in particular a trailing non-command
character after `TAPELEN - 2` stored commands does cause the failure. -/
theorem lex_characterization (input : List Char) :
    (lex input = none ↔ LexOverflow input)
      ∧ (∀ ts, lex input = some ts → ts = input.filterMap charTok) := by
  constructor
  · rw [lex, lexAux_none_iff input 0]
    simp [LexOverflow]
  · intro ts h
    exact lexAux_some input 0 ts h

/-- Witness for C7 at the two-character input `a+`. -/
theorem lex_characterization_witness :
    ¬LexOverflow ['a', '+'] ∧ ([Tok.plus] : List Tok) = ['a', '+'].filterMap charTok :=
  ⟨by decide, (lex_characterization ['a', '+']).2 [Tok.plus] rfl⟩

/-- C8: executing `OP_GET` with argument `n` (with at least `n` input bytes
available) consumes exactly `n` input bytes and leaves the current cell
holding only the `n`-th byte read; the earlier reads are overwritten. -/
theorem input_folding_semantics (prog : List Instruction) (ip : Nat) (st : St)
    (n f : Nat) (h : prog[ip]? = some ⟨OP_GET, n⟩) (h1 : 0 < n)
    (h2 : n ≤ st.inp.length) :
    optRun prog (f + 1) (ip, st) = optRun prog f (ip + 1, doGet n st)
      ∧ (doGet n st).inp = st.inp.drop n
      ∧ readCell (doGet n st) = st.inp.getD (n - 1) 0 % 256 := by
  refine ⟨?_, ?_, ?_⟩
  · rw [optRun, runFuel, if_neg (by rw [oHalt, h]; simp), ostep_eq_get prog ip st n h,
      Option.some_bind]
    rfl
  · rw [doGet_inp, getN_spec n st.inp (readCell st) h1 h2]
  · rw [readCell_doGet, getN_spec n st.inp (readCell st) h1 h2]

/-- Witness for C8: a folded `OP_GET 2` on the input stream `65, 66`. -/
theorem input_folding_semantics_witness :
    ([⟨OP_GET, 2⟩] : List Instruction)[0]? = some ⟨OP_GET, 2⟩
      ∧ (optRun [⟨OP_GET, 2⟩] 4 (0, initSt [65, 66])
            = optRun [⟨OP_GET, 2⟩] 3 (1, doGet 2 (initSt [65, 66]))
          ∧ (doGet 2 (initSt [65, 66])).inp = ([65, 66] : List Int).drop 2
          ∧ readCell (doGet 2 (initSt [65, 66])) = ([65, 66] : List Int).getD 1 0 % 256) :=
  ⟨rfl, input_folding_semantics [⟨OP_GET, 2⟩] 0 (initSt [65, 66]) 2 3 rfl
    (by decide) (by decide)⟩

/-- C9: the compiled program is a deterministic function of the source and
the runtime input: any two complete runs of the pipeline on the same source
and input (regardless of how much fuel the embedding supplies) produce the
same output byte sequence. -/
theorem pipeline_deterministic (src : List Char) (inp : List Int) (f g : Nat)
    (O1 O2 : List Int) (h1 : bfcOut f src inp = some O1)
    (h2 : bfcOut g src inp = some O2) : O1 = O2 := by
  rw [bfcOut] at h1 h2
  cases hlex : lex src with
  | none =>
    rw [hlex] at h1
    simp at h1
  | some ts =>
    rw [hlex, Option.some_bind] at h1 h2
    cases hparse : parse ts with
    | none =>
      rw [hparse] at h1
      simp at h1
    | some ast =>
      rw [hparse, Option.some_bind] at h1 h2
      cases hoptz : optimize (compile ast) with
      | none =>
        rw [hoptz] at h1
        simp at h1
      | some prog =>
        rw [hoptz, Option.some_bind] at h1 h2
        cases hrun1 : optRun prog f (0, initSt inp) with
        | none =>
          rw [hrun1] at h1
          simp at h1
        | some y1 =>
          cases hrun2 : optRun prog g (0, initSt inp) with
          | none =>
            rw [hrun2] at h2
            simp at h2
          | some y2 =>
            rw [hrun1, Option.map_some'] at h1
            rw [hrun2, Option.map_some'] at h2
            have hy : y1 = y2 := by
              rcases le_total f g with hfg | hgf
              · exact Option.some_inj.mp
                  ((runFuel_mono _ _ f g _ y1 hfg hrun1).symm.trans hrun2)
              · exact (Option.some_inj.mp
                  ((runFuel_mono _ _ g f _ y2 hgf hrun2).symm.trans hrun1)).symm
            rw [← Option.some_inj.mp h1, ← Option.some_inj.mp h2, hy]

/-- Witness for C9: the program `.` run with fuels 3 and 9. -/
theorem pipeline_deterministic_witness :
    bfcOut 3 ['.'] [] = some [0] ∧ bfcOut 9 ['.'] [] = some [0]
      ∧ ([0] : List Int) = [0] := by
  refine ⟨?_, ?_, ?_⟩
  · show (optimize (compile [OP_PUT])).bind
      (fun prog => (optRun prog 3 (0, initSt [])).map fun y => y.2.out) = some [0]
    rw [show optimize (compile [OP_PUT]) = some [⟨OP_PUT, 1⟩] from by
      simp [optimize, optimizeGo, compile]]
    rfl
  · show (optimize (compile [OP_PUT])).bind
      (fun prog => (optRun prog 9 (0, initSt [])).map fun y => y.2.out) = some [0]
    rw [show optimize (compile [OP_PUT]) = some [⟨OP_PUT, 1⟩] from by
      simp [optimize, optimizeGo, compile]]
    rfl
  · exact pipeline_deterministic ['.'] [] 3 9 [0] [0]
      (by
        show (optimize (compile [OP_PUT])).bind
          (fun prog => (optRun prog 3 (0, initSt [])).map fun y => y.2.out) = some [0]
        rw [show optimize (compile [OP_PUT]) = some [⟨OP_PUT, 1⟩] from by
          simp [optimize, optimizeGo, compile]]
        rfl)
      (by
        show (optimize (compile [OP_PUT])).bind
          (fun prog => (optRun prog 9 (0, initSt [])).map fun y => y.2.out) = some [0]
        rw [show optimize (compile [OP_PUT]) = some [⟨OP_PUT, 1⟩] from by
          simp [optimize, optimizeGo, compile]]
        rfl)

/-- C10: executing `OP_GET` on an exhausted input stream stores the
end-of-stream value (`EOF = -1`, truncated by the `char` assignment to the
byte 255) in the current cell, and execution simply continues with the next
instruction. -/
theorem input_eof_semantics (prog : List Instruction) (ip : Nat) (st : St)
    (n f : Nat) (h : prog[ip]? = some ⟨OP_GET, n⟩) (h1 : 0 < n)
    (h2 : st.inp = []) :
    optRun prog (f + 1) (ip, st) = optRun prog f (ip + 1, doGet n st)
      ∧ readCell (doGet n st) = 255 ∧ (doGet n st).inp = [] := by
  refine ⟨?_, ?_, ?_⟩
  · rw [optRun, runFuel, if_neg (by rw [oHalt, h]; simp), ostep_eq_get prog ip st n h,
      Option.some_bind]
    rfl
  · rw [readCell_doGet, h2, getN_empty n h1 (readCell st)]
  · rw [doGet_inp, h2, getN_empty n h1 (readCell st)]

/-- Witness for C10: `OP_GET 1` on an empty input stream. -/
theorem input_eof_semantics_witness :
    ([⟨OP_GET, 1⟩] : List Instruction)[0]? = some ⟨OP_GET, 1⟩
      ∧ (optRun [⟨OP_GET, 1⟩] 4 (0, initSt [])
            = optRun [⟨OP_GET, 1⟩] 3 (1, doGet 1 (initSt []))
          ∧ readCell (doGet 1 (initSt [])) = 255 ∧ (doGet 1 (initSt [])).inp = []) :=
  ⟨rfl, input_eof_semantics [⟨OP_GET, 1⟩] 0 (initSt []) 1 3 rfl (by decide) rfl⟩
